import Mathlib

/-!
Verification of the Sudoku engine core (board, layout, solver, generator)
against its specification.  The Go source is shallowly embedded: boards are
records of cell/mask/counter state, Go ints become `ℤ` at API boundaries and
`ℕ` internally, fallible operations return the mutated state together with an
optional error value, and loops become structural recursions over position
lists or explicit iteration budgets that mirror the source's own bounds.
-/

set_option maxRecDepth 100000

namespace Sudoku

/-- Errors returned by Board operations (`ErrInvalidPosition`,
`ErrInvalidValue`, `ErrIllegalMove` in board.go). -/
inductive BErr where
  | invalidPosition
  | invalidValue
  | illegalMove
deriving DecidableEq, Repr

/-- Bitwise combination of two natural numbers over the 64 bits of a Go
`uint`, by structural recursion on the bit budget so that the kernel can
evaluate it.  Bits at index 64 and above are truncated, exactly as a 64-bit
machine word truncates them. -/
def bitw (f : Bool → Bool → Bool) : ℕ → ℕ → ℕ → ℕ
  | 0, _, _ => 0
  | fuel + 1, a, b =>
      (cond (f (decide (a % 2 = 1)) (decide (b % 2 = 1))) 1 0) + 2 * bitw f fuel (a / 2) (b / 2)

/-- Go `&` on `uint`. -/
def landU (a b : ℕ) : ℕ := bitw (fun x y => x && y) 64 a b

/-- Go `|` on `uint`. -/
def lorU (a b : ℕ) : ℕ := bitw (fun x y => x || y) 64 a b

/-- Go `&^` (AND NOT) on `uint`. -/
def ldiffU (a b : ℕ) : ℕ := bitw (fun x y => x && !y) 64 a b

/-- Row of a position, mirroring the `posToRow` lookup table (`pos / 9`). -/
def rowOf (p : Fin 81) : Fin 9 := ⟨p.val / 9, by have := p.isLt; omega⟩

/-- Column of a position, mirroring the `posToCol` lookup table (`pos % 9`). -/
def colOf (p : Fin 81) : Fin 9 := ⟨p.val % 9, by have := p.isLt; omega⟩

/-- Region map of the standard 3x3-box layout
(`3*(pos/27) + (pos%9)/3`, layout.go `StandardLayout`). -/
def standardRegion (p : Fin 81) : Fin 9 :=
  ⟨3 * (p.val / 27) + p.val % 9 / 3, by have := p.isLt; omega⟩

/-- A 9x9 Sudoku board (`struct Board` in board.go): the 81 cells, the three
unit-mask arrays (bit `k` of a mask stands for digit `k+1`) and the
empty-cell counter.  The region structure of the board's layout is passed to
each operation as a function `R : Fin 81 → Fin 9` standing for
`layout.PosToRegion`; the layout itself is immutable and shared. -/
structure Board where
  cells : Fin 81 → ℕ
  rowMasks : Fin 9 → ℕ
  colMasks : Fin 9 → ℕ
  regionMasks : Fin 9 → ℕ
  emptyCount : ℤ

/-- `New`: an empty board (81 empty cells, all masks zero). -/
def Board.new : Board :=
  { cells := fun _ => 0
    rowMasks := fun _ => 0
    colMasks := fun _ => 0
    regionMasks := fun _ => 0
    emptyCount := 81 }

/-- `Clone` is a whole-structure copy; with value semantics it is the
identity on board values. -/
def Board.clone (b : Board) : Board := b

/-- `Clear` (board.go): remove the value at `pos`; errors on an out-of-range
position; a no-op on an already empty cell.  Returns the board after the
call together with the error value. -/
def Board.clear (R : Fin 81 → Fin 9) (b : Board) (pos : ℤ) : Board × Option BErr :=
  if h : 0 ≤ pos ∧ pos < 81 then
    let p : Fin 81 := ⟨pos.toNat, by omega⟩
    let v := b.cells p
    if v = 0 then (b, none)
    else
      let m : ℕ := 1 <<< (v - 1)
      ({ cells := Function.update b.cells p 0
         rowMasks := Function.update b.rowMasks (rowOf p) (ldiffU (b.rowMasks (rowOf p)) m)
         colMasks := Function.update b.colMasks (colOf p) (ldiffU (b.colMasks (colOf p)) m)
         regionMasks := Function.update b.regionMasks (R p) (ldiffU (b.regionMasks (R p)) m)
         emptyCount := b.emptyCount + 1 }, none)
  else (b, some .invalidPosition)

/-- `SetForce` (board.go): unchecked placement, caller guarantees legality.
Write the cell, OR the digit's bit into the three unit masks, decrement the
counter — the same write-back block that ends a successful `Set`. -/
def Board.setForce (R : Fin 81 → Fin 9) (b : Board) (p : Fin 81) (val : ℕ) : Board :=
  let m : ℕ := 1 <<< (val - 1)
  { cells := Function.update b.cells p val
    rowMasks := Function.update b.rowMasks (rowOf p) (lorU (b.rowMasks (rowOf p)) m)
    colMasks := Function.update b.colMasks (colOf p) (lorU (b.colMasks (colOf p)) m)
    regionMasks := Function.update b.regionMasks (R p) (lorU (b.regionMasks (R p)) m)
    emptyCount := b.emptyCount - 1 }

/-- The tail of `Set` (board.go lines 115-136): the three unit-mask checks
against `1 <<< (val-1)` followed by the write-back.  `b1` is the board after
position/value validation and the clear-if-occupied preamble. -/
def Board.setChecked (R : Fin 81 → Fin 9) (b1 : Board) (p : Fin 81) (val : ℕ) :
    Board × Option BErr :=
  let m : ℕ := 1 <<< (val - 1)
  if landU (b1.rowMasks (rowOf p)) m ≠ 0 then (b1, some .illegalMove)
  else if landU (b1.colMasks (colOf p)) m ≠ 0 then (b1, some .illegalMove)
  else if landU (b1.regionMasks (R p)) m ≠ 0 then (b1, some .illegalMove)
  else (b1.setForce R p val, none)

/-- `Set` (board.go): validate position and value, treat `val = 0` as
`Clear`, clear an occupied target cell first, then run the unit-mask checks
and write-back of `setChecked`. -/
def Board.set (R : Fin 81 → Fin 9) (b : Board) (pos val : ℤ) : Board × Option BErr :=
  if h : 0 ≤ pos ∧ pos < 81 then
    if (1 ≤ val ∧ val ≤ 9) ∨ val = 0 then
      if val = 0 then b.clear R pos
      else
        let p : Fin 81 := ⟨pos.toNat, by omega⟩
        let b1 := if b.cells p ≠ 0 then (b.clear R pos).1 else b
        b1.setChecked R p val.toNat
    else (b, some .invalidValue)
  else (b, some .invalidPosition)

/-- `Get` (board.go): value at `pos`, `InvalidCell` (-1) when out of range. -/
def Board.get (b : Board) (pos : ℤ) : ℤ :=
  if h : 0 ≤ pos ∧ pos < 81 then (b.cells ⟨pos.toNat, by omega⟩ : ℤ) else -1

/-- `GetCandidatesMask` (board.go): `allNine &^ rowMask &^ colMask &^
regionMask`; 0 for an out-of-range position. -/
def Board.getCandidatesMask (R : Fin 81 → Fin 9) (b : Board) (pos : ℤ) : ℕ :=
  if h : 0 ≤ pos ∧ pos < 81 then
    let p : Fin 81 := ⟨pos.toNat, by omega⟩
    ldiffU (ldiffU (ldiffU 511 (b.rowMasks (rowOf p))) (b.colMasks (colOf p)))
      (b.regionMasks (R p))
  else 0

/-- `GetCandidates` (board.go): candidates 1..9 in ascending order, read off
the candidate mask bit by bit. -/
def Board.getCandidates (R : Fin 81 → Fin 9) (b : Board) (pos : ℤ) : List ℕ :=
  let mask := b.getCandidatesMask R pos
  (List.range 9).filterMap (fun k => if landU mask (1 <<< k) ≠ 0 then some (k + 1) else none)

/-- `ClueCount` (board.go): `CellCount - emptyCount`. -/
def Board.clueCount (b : Board) : ℤ := 81 - b.emptyCount

/-- State of the `IsValid` scan: `none` once a duplicate has been found
(the Go loop returns false early), otherwise the three check-mask arrays
accumulated so far. -/
def IsValidState := Option ((Fin 9 → ℕ) × (Fin 9 → ℕ) × (Fin 9 → ℕ))

/-- One step of the `IsValid` scan at position `p` (board.go IsValid loop
body): skip empty cells, fail on a duplicate in any unit, otherwise record
the digit in the three check masks. -/
def isValidStep (R : Fin 81 → Fin 9) (b : Board) (st : IsValidState) (p : Fin 81) :
    IsValidState :=
  match st with
  | none => none
  | some (rc, cc, gc) =>
    let v := b.cells p
    if v = 0 then some (rc, cc, gc)
    else
      let m : ℕ := 1 <<< (v - 1)
      if landU (rc (rowOf p)) m ≠ 0 ∨ landU (cc (colOf p)) m ≠ 0 ∨ landU (gc (R p)) m ≠ 0 then none
      else
        some (Function.update rc (rowOf p) (lorU (rc (rowOf p)) m),
          Function.update cc (colOf p) (lorU (cc (colOf p)) m),
          Function.update gc (R p) (lorU (gc (R p)) m))

/-- `IsValid` (board.go): rebuild the three mask arrays from scratch over all
81 cells and report whether a duplicate was observed. -/
def Board.isValid (R : Fin 81 → Fin 9) (b : Board) : Bool :=
  ((List.finRange 81).foldl (isValidStep R b) (some (fun _ => 0, fun _ => 0, fun _ => 0))).isSome

/-- `String()` (board.go): the 81 bytes of the wire format, `'.'` (byte 46)
for an empty cell and `'0' + cell` otherwise, in row-major cell order. -/
def Board.toString (b : Board) : List ℕ :=
  (List.finRange 81).map (fun p => if b.cells p = 0 then 46 else 48 + b.cells p)

/-! ## Bit-level lemmas about the mask operations -/

theorem bitw_testBit (f : Bool → Bool → Bool) :
    ∀ (fuel a b k : ℕ),
      (bitw f fuel a b).testBit k =
        if k < fuel then f (a.testBit k) (b.testBit k) else false := by
  intro fuel
  induction fuel with
  | zero => intro a b k; simp [bitw, Nat.zero_testBit]
  | succ n ih =>
    intro a b k
    cases k with
    | zero =>
      have hmod : ∀ c r : ℕ, c < 2 → (c + 2 * r) % 2 = c := by intro c r hc; omega
      rcases hfb : f (decide (a % 2 = 1)) (decide (b % 2 = 1)) with _ | _ <;>
        simp [bitw, Nat.testBit_zero, hfb, hmod]
    | succ k =>
      have hdiv : ∀ c r : ℕ, c < 2 → (c + 2 * r) / 2 = r := by intro c r hc; omega
      have hc : (cond (f (decide (a % 2 = 1)) (decide (b % 2 = 1))) 1 0 : ℕ) < 2 := by
        cases f (decide (a % 2 = 1)) (decide (b % 2 = 1)) <;> simp
      simp only [bitw, Nat.testBit_succ, hdiv _ _ hc, ih (a / 2) (b / 2) k,
        Nat.succ_lt_succ_iff]

theorem landU_testBit (a b k : ℕ) (hk : k < 64) :
    (landU a b).testBit k = (a.testBit k && b.testBit k) := by
  rw [landU, bitw_testBit, if_pos hk]

theorem lorU_testBit (a b k : ℕ) (hk : k < 64) :
    (lorU a b).testBit k = (a.testBit k || b.testBit k) := by
  rw [lorU, bitw_testBit, if_pos hk]

theorem ldiffU_testBit (a b k : ℕ) (hk : k < 64) :
    (ldiffU a b).testBit k = (a.testBit k && !(b.testBit k)) := by
  rw [ldiffU, bitw_testBit, if_pos hk]

theorem shift_one_testBit (k j : ℕ) : (1 <<< k).testBit j = decide (k = j) := by
  rw [Nat.one_shiftLeft, Nat.testBit_two_pow]

/-- The Go idiom `mask & (1 << k) != 0` reads bit `k` of the mask. -/
theorem landU_shift_ne_zero (a k : ℕ) (hk : k < 64) :
    landU a (1 <<< k) ≠ 0 ↔ a.testBit k = true := by
  constructor
  · intro h
    obtain ⟨i, hi, -⟩ := Nat.exists_most_significant_bit h
    by_cases hik : i < 64
    · rw [landU_testBit _ _ _ hik, shift_one_testBit] at hi
      obtain ⟨hai, hki⟩ := Bool.and_eq_true_iff.mp hi
      have : k = i := of_decide_eq_true hki
      subst this; exact hai
    · rw [landU, bitw_testBit, if_neg hik] at hi; exact absurd hi (by simp)
  · intro h hz
    have h0 := congrArg (fun n => n.testBit k) hz
    simp only [Nat.zero_testBit] at h0
    rw [landU_testBit _ _ _ hk, shift_one_testBit, h] at h0
    simp at h0

theorem lorU_shift_testBit (m k j : ℕ) (hj : j < 64) :
    (lorU m (1 <<< k)).testBit j = (m.testBit j || decide (k = j)) := by
  rw [lorU_testBit _ _ _ hj, shift_one_testBit]

theorem ldiffU_shift_testBit (m k j : ℕ) (hj : j < 64) :
    (ldiffU m (1 <<< k)).testBit j = (m.testBit j && !(decide (k = j))) := by
  rw [ldiffU_testBit _ _ _ hj, shift_one_testBit]

/-- Bit `k < 9` of the candidate mask `511 &^ rm &^ cm &^ gm`. -/
theorem cand_testBit (rm cm gm k : ℕ) (hk : k < 9) :
    (ldiffU (ldiffU (ldiffU 511 rm) cm) gm).testBit k =
      (!(rm.testBit k) && !(cm.testBit k) && !(gm.testBit k)) := by
  have h511 : (511 : ℕ).testBit k = true := by interval_cases k <;> decide
  rw [ldiffU_testBit _ _ _ (by omega), ldiffU_testBit _ _ _ (by omega),
    ldiffU_testBit _ _ _ (by omega), h511]
  cases rm.testBit k <;> cases cm.testBit k <;> cases gm.testBit k <;> rfl

/-! ## The board invariant -/

/-- Two positions share a row, column or region. -/
def sameUnit (R : Fin 81 → Fin 9) (p q : Fin 81) : Prop :=
  rowOf p = rowOf q ∨ colOf p = colOf q ∨ R p = R q

instance (R : Fin 81 → Fin 9) (p q : Fin 81) : Decidable (sameUnit R p q) := by
  unfold sameUnit; infer_instance

/-- Number of empty cells actually present in the cell array. -/
def zeroCount (cells : Fin 81 → ℕ) : ℕ :=
  (Finset.univ.filter (fun p : Fin 81 => cells p = 0)).card

/-- Bit `k` of the mask of unit `r` is set exactly when digit `k+1`
occupies some cell of that unit (`u` is the unit assignment: row, column
or region of a position). -/
def BitChar (u : Fin 81 → Fin 9) (M : Fin 9 → ℕ) (cells : Fin 81 → ℕ) : Prop :=
  ∀ (r : Fin 9) (k : ℕ), k < 9 →
    ((M r).testBit k = true ↔ ∃ p, u p = r ∧ cells p = k + 1)

/-- The state invariant of a board: cell values are at most 9, each unit
mask holds exactly the bits of the digits placed in that unit, no unit
contains a digit twice, and the counter agrees with the number of empty
cells.  Spec §3: "Invariants (must hold after every public operation
returns success)". -/
structure Inv (R : Fin 81 → Fin 9) (b : Board) : Prop where
  cellsLe : ∀ p, b.cells p ≤ 9
  rowBit : BitChar rowOf b.rowMasks b.cells
  colBit : BitChar colOf b.colMasks b.cells
  regBit : BitChar R b.regionMasks b.cells
  noDup : ∀ p q : Fin 81, p ≠ q → sameUnit R p q → b.cells p ≠ 0 →
    b.cells p ≠ b.cells q
  counter : b.emptyCount = (zeroCount b.cells : ℤ)

theorem inv_new (R : Fin 81 → Fin 9) : Inv R Board.new := by
  refine ⟨fun p => by simp [Board.new], ?_, ?_, ?_, ?_, ?_⟩
  · intro r k hk
    simp [Board.new, Nat.zero_testBit]
  · intro c k hk
    simp [Board.new, Nat.zero_testBit]
  · intro g k hk
    simp [Board.new, Nat.zero_testBit]
  · intro p q _ _ h
    simp [Board.new] at h
  · simp [Board.new, zeroCount]

/-! ## Characterization of `Clear` and `Set` -/

theorem posInt_ok (p : Fin 81) : (0:ℤ) ≤ (p.val : ℤ) ∧ (p.val : ℤ) < 81 :=
  ⟨Int.natCast_nonneg _, by exact_mod_cast p.isLt⟩

/-- An in-range integer position comes from a `Fin 81`. -/
theorem posOK_cases (pos : ℤ) :
    ¬(0 ≤ pos ∧ pos < 81) ∨ ∃ p : Fin 81, pos = (p.val : ℤ) := by
  by_cases h : 0 ≤ pos ∧ pos < 81
  · exact Or.inr ⟨⟨pos.toNat, by omega⟩, by simp; omega⟩
  · exact Or.inl h

theorem clear_invalid (R : Fin 81 → Fin 9) (b : Board) (pos : ℤ)
    (h : ¬(0 ≤ pos ∧ pos < 81)) : b.clear R pos = (b, some .invalidPosition) := by
  unfold Board.clear; rw [dif_neg h]

theorem clear_coe_empty (R : Fin 81 → Fin 9) (b : Board) (p : Fin 81)
    (h : b.cells p = 0) : b.clear R (p.val : ℤ) = (b, none) := by
  simp [Board.clear, posInt_ok p, h]

theorem clear_coe_filled (R : Fin 81 → Fin 9) (b : Board) (p : Fin 81)
    (h : b.cells p ≠ 0) :
    b.clear R (p.val : ℤ) =
      ({ cells := Function.update b.cells p 0
         rowMasks := Function.update b.rowMasks (rowOf p)
           (ldiffU (b.rowMasks (rowOf p)) (1 <<< (b.cells p - 1)))
         colMasks := Function.update b.colMasks (colOf p)
           (ldiffU (b.colMasks (colOf p)) (1 <<< (b.cells p - 1)))
         regionMasks := Function.update b.regionMasks (R p)
           (ldiffU (b.regionMasks (R p)) (1 <<< (b.cells p - 1)))
         emptyCount := b.emptyCount + 1 }, none) := by
  simp [Board.clear, posInt_ok p, h]

theorem zeroCount_update_zero (f : Fin 81 → ℕ) (p : Fin 81) (hp : f p ≠ 0) :
    zeroCount (Function.update f p 0) = zeroCount f + 1 := by
  unfold zeroCount
  have hset : (Finset.univ.filter (fun q : Fin 81 => Function.update f p 0 q = 0)) =
      insert p (Finset.univ.filter (fun q : Fin 81 => f q = 0)) := by
    ext q
    by_cases hq : q = p
    · subst hq; simp
    · simp [Finset.mem_filter, Function.update_noteq hq, hq]
  rw [hset, Finset.card_insert_of_not_mem (by simp [Finset.mem_filter, hp])]

theorem zeroCount_update_ne (f : Fin 81 → ℕ) (p : Fin 81) (v : ℕ) (hv : v ≠ 0)
    (hp : f p = 0) :
    zeroCount f = zeroCount (Function.update f p v) + 1 := by
  unfold zeroCount
  have hset : (Finset.univ.filter (fun q : Fin 81 => Function.update f p v q = 0)) =
      (Finset.univ.filter (fun q : Fin 81 => f q = 0)).erase p := by
    ext q
    by_cases hq : q = p
    · subst hq; simp [hv]
    · simp [Finset.mem_filter, Function.update_noteq hq, hq]
  have hmem : p ∈ Finset.univ.filter (fun q : Fin 81 => f q = 0) := by
    simp [Finset.mem_filter, hp]
  have hpos : 1 ≤ (Finset.univ.filter (fun q : Fin 81 => f q = 0)).card :=
    Finset.card_pos.mpr ⟨p, hmem⟩
  rw [hset, Finset.card_erase_of_mem hmem]
  omega

theorem sameUnit_symm {R : Fin 81 → Fin 9} {p q : Fin 81} (h : sameUnit R p q) :
    sameUnit R q p := by
  rcases h with h | h | h
  · exact Or.inl h.symm
  · exact Or.inr (Or.inl h.symm)
  · exact Or.inr (Or.inr h.symm)

/-- Removing or rewriting a cell that cannot carry digit `k+1` (in either
its old or new value) does not change whether digit `k+1` occurs in a unit. -/
theorem exists_digit_update {u : Fin 81 → Fin 9} {cells : Fin 81 → ℕ}
    {p : Fin 81} {w : ℕ} {r : Fin 9} {k : ℕ}
    (hpz : cells p ≠ k + 1) (hwz : w ≠ k + 1) :
    (∃ q, u q = r ∧ cells q = k + 1) ↔
      ∃ q, u q = r ∧ Function.update cells p w q = k + 1 := by
  constructor
  · rintro ⟨q, hqu, hqv⟩
    have hq : q ≠ p := fun hqp => by subst hqp; exact hpz hqv
    exact ⟨q, hqu, by rw [Function.update_noteq hq]; exact hqv⟩
  · rintro ⟨q, hqu, hqv⟩
    have hq : q ≠ p := fun hqp => by
      subst hqp; rw [Function.update_same] at hqv; exact hwz hqv
    rw [Function.update_noteq hq] at hqv
    exact ⟨q, hqu, hqv⟩

/-- Effect of a `Clear` on the mask characterization of one unit family. -/
theorem bitChar_clear {u : Fin 81 → Fin 9} {M : Fin 9 → ℕ} {cells : Fin 81 → ℕ}
    (hchar : BitChar u M cells) (p : Fin 81) (hv1 : 1 ≤ cells p) (hv9 : cells p ≤ 9)
    (hnodup : ∀ q, q ≠ p → u q = u p → cells q ≠ cells p) :
    BitChar u (Function.update M (u p) (ldiffU (M (u p)) (1 <<< (cells p - 1))))
      (Function.update cells p 0) := by
  intro r k hk
  by_cases hr : r = u p
  · subst hr
    rw [Function.update_same, ldiffU_shift_testBit _ _ _ (by omega)]
    by_cases hkv : cells p - 1 = k
    · have hd : decide (cells p - 1 = k) = true := by simp [hkv]
      rw [hd]
      simp only [Bool.not_true, Bool.and_false]
      constructor
      · intro h; exact absurd h (by simp)
      · rintro ⟨q, hqu, hqv⟩
        exfalso
        by_cases hq : q = p
        · subst hq; rw [Function.update_same] at hqv; omega
        · rw [Function.update_noteq hq] at hqv
          exact hnodup q hq hqu (by omega)
    · have hd : decide (cells p - 1 = k) = false := by simp [hkv]
      rw [hd]
      simp only [Bool.not_false, Bool.and_true]
      rw [hchar (u p) k hk]
      exact exists_digit_update (by omega) (by omega)
  · rw [Function.update_noteq hr, hchar r k hk]
    constructor
    · rintro ⟨q, hqu, hqv⟩
      have hq : q ≠ p := fun hqp => by subst hqp; exact hr hqu.symm
      exact ⟨q, hqu, by rw [Function.update_noteq hq]; exact hqv⟩
    · rintro ⟨q, hqu, hqv⟩
      have hq : q ≠ p := fun hqp => by subst hqp; exact hr hqu.symm
      rw [Function.update_noteq hq] at hqv
      exact ⟨q, hqu, hqv⟩

/-- Effect of a legal placement on the mask characterization of one unit
family. -/
theorem bitChar_place {u : Fin 81 → Fin 9} {M : Fin 9 → ℕ} {cells : Fin 81 → ℕ}
    (hchar : BitChar u M cells) (p : Fin 81) (v : ℕ)
    (h1 : 1 ≤ v) (h9 : v ≤ 9) (hemp : cells p = 0)
    (hnc : ∀ q, u q = u p → cells q ≠ v) :
    BitChar u (Function.update M (u p) (lorU (M (u p)) (1 <<< (v - 1))))
      (Function.update cells p v) := by
  intro r k hk
  by_cases hr : r = u p
  · subst hr
    rw [Function.update_same, lorU_shift_testBit _ _ _ (by omega)]
    by_cases hkv : v - 1 = k
    · have hd : decide (v - 1 = k) = true := by simp [hkv]
      rw [hd]
      simp only [Bool.or_true, true_iff]
      exact ⟨p, rfl, by rw [Function.update_same]; omega⟩
    · have hd : decide (v - 1 = k) = false := by simp [hkv]
      rw [hd]
      simp only [Bool.or_false]
      rw [hchar (u p) k hk]
      exact exists_digit_update (by omega) (by omega)
  · rw [Function.update_noteq hr, hchar r k hk]
    constructor
    · rintro ⟨q, hqu, hqv⟩
      have hq : q ≠ p := fun hqp => by subst hqp; exact hr hqu.symm
      exact ⟨q, hqu, by rw [Function.update_noteq hq]; exact hqv⟩
    · rintro ⟨q, hqu, hqv⟩
      have hq : q ≠ p := fun hqp => by subst hqp; exact hr hqu.symm
      rw [Function.update_noteq hq] at hqv
      exact ⟨q, hqu, hqv⟩

/-- `Clear` preserves the invariant, whatever the outcome. -/
theorem clear_fst_inv (R : Fin 81 → Fin 9) (b : Board) (pos : ℤ) (hInv : Inv R b) :
    Inv R ((b.clear R pos).1) := by
  rcases posOK_cases pos with h | ⟨p, rfl⟩
  · rw [clear_invalid R b pos h]; exact hInv
  by_cases hemp : b.cells p = 0
  · rw [clear_coe_empty R b p hemp]; exact hInv
  rw [clear_coe_filled R b p hemp]
  have hv1 : 1 ≤ b.cells p := by omega
  have hv9 : b.cells p ≤ 9 := hInv.cellsLe p
  refine ⟨?_, ?_, ?_, ?_, ?_, ?_⟩
  · intro q
    by_cases hq : q = p
    · subst hq; simp
    · simp only [Function.update_noteq hq]; exact hInv.cellsLe q
  · exact bitChar_clear hInv.rowBit p hv1 hv9
      (fun q hq hu => (hInv.noDup p q (Ne.symm hq) (Or.inl hu.symm) (by omega)).symm)
  · exact bitChar_clear hInv.colBit p hv1 hv9
      (fun q hq hu => (hInv.noDup p q (Ne.symm hq) (Or.inr (Or.inl hu.symm)) (by omega)).symm)
  · exact bitChar_clear hInv.regBit p hv1 hv9
      (fun q hq hu => (hInv.noDup p q (Ne.symm hq) (Or.inr (Or.inr hu.symm)) (by omega)).symm)
  · intro x y hxy hsame hx
    have hx' : Function.update b.cells p 0 x ≠ 0 := hx
    show Function.update b.cells p 0 x ≠ Function.update b.cells p 0 y
    by_cases hxp : x = p
    · subst hxp; rw [Function.update_same] at hx'; omega
    · rw [Function.update_noteq hxp] at hx' ⊢
      by_cases hyp : y = p
      · subst hyp; rw [Function.update_same]; omega
      · rw [Function.update_noteq hyp]
        exact hInv.noDup x y hxy hsame hx'
  · show b.emptyCount + 1 = (zeroCount (Function.update b.cells p 0) : ℤ)
    have hzc := zeroCount_update_zero b.cells p hemp
    have hc := hInv.counter
    omega

/-- A digit may be placed at `p` iff it does not yet occur in the row,
column or region of `p` (the three unit-mask tests of `Set`). -/
def Conflict (R : Fin 81 → Fin 9) (b : Board) (p : Fin 81) (v : ℕ) : Prop :=
  ∃ q, sameUnit R p q ∧ b.cells q = v

instance (R : Fin 81 → Fin 9) (b : Board) (p : Fin 81) (v : ℕ) :
    Decidable (Conflict R b p v) := by
  unfold Conflict; infer_instance

/-- Under the invariant, the three unit-mask tests of `Set` succeed exactly
when the digit does not occur in a unit of `p`. -/
theorem conflict_iff_masks (R : Fin 81 → Fin 9) (b : Board) (hInv : Inv R b)
    (p : Fin 81) (v : ℕ) (h1 : 1 ≤ v) (h9 : v ≤ 9) :
    Conflict R b p v ↔
      (landU (b.rowMasks (rowOf p)) (1 <<< (v - 1)) ≠ 0 ∨
       landU (b.colMasks (colOf p)) (1 <<< (v - 1)) ≠ 0 ∨
       landU (b.regionMasks (R p)) (1 <<< (v - 1)) ≠ 0) := by
  rw [landU_shift_ne_zero _ _ (by omega), landU_shift_ne_zero _ _ (by omega),
    landU_shift_ne_zero _ _ (by omega),
    hInv.rowBit (rowOf p) (v - 1) (by omega), hInv.colBit (colOf p) (v - 1) (by omega),
    hInv.regBit (R p) (v - 1) (by omega)]
  have hvk : v - 1 + 1 = v := by omega
  simp only [hvk]
  constructor
  · rintro ⟨q, (h | h | h), hv⟩
    · exact Or.inl ⟨q, h.symm, hv⟩
    · exact Or.inr (Or.inl ⟨q, h.symm, hv⟩)
    · exact Or.inr (Or.inr ⟨q, h.symm, hv⟩)
  · rintro (⟨q, h, hv⟩ | ⟨q, h, hv⟩ | ⟨q, h, hv⟩)
    · exact ⟨q, Or.inl h.symm, hv⟩
    · exact ⟨q, Or.inr (Or.inl h.symm), hv⟩
    · exact ⟨q, Or.inr (Or.inr h.symm), hv⟩

/-- A legal `SetForce` (empty target, digit absent from all three units)
preserves the invariant. -/
theorem setForce_inv (R : Fin 81 → Fin 9) (b : Board) (hInv : Inv R b)
    (p : Fin 81) (v : ℕ) (h1 : 1 ≤ v) (h9 : v ≤ 9)
    (hemp : b.cells p = 0) (hnc : ¬ Conflict R b p v) :
    Inv R (b.setForce R p v) := by
  have hnc' : ∀ q, sameUnit R p q → b.cells q ≠ v := by
    intro q hs hv; exact hnc ⟨q, hs, hv⟩
  refine ⟨?_, ?_, ?_, ?_, ?_, ?_⟩
  · intro q
    by_cases hq : q = p
    · subst hq; simp [Board.setForce, h9]
    · simp only [Board.setForce, Function.update_noteq hq]; exact hInv.cellsLe q
  · exact bitChar_place hInv.rowBit p v h1 h9 hemp
      (fun q hu => hnc' q (Or.inl hu.symm))
  · exact bitChar_place hInv.colBit p v h1 h9 hemp
      (fun q hu => hnc' q (Or.inr (Or.inl hu.symm)))
  · exact bitChar_place hInv.regBit p v h1 h9 hemp
      (fun q hu => hnc' q (Or.inr (Or.inr hu.symm)))
  · intro x y hxy hsame hx
    have hx' : Function.update b.cells p v x ≠ 0 := hx
    show Function.update b.cells p v x ≠ Function.update b.cells p v y
    by_cases hxp : x = p
    · subst hxp
      rw [Function.update_same]
      rw [Function.update_noteq (Ne.symm hxy)]
      intro hv
      exact hnc' y hsame hv.symm
    · rw [Function.update_noteq hxp] at hx' ⊢
      by_cases hyp : y = p
      · subst hyp
        rw [Function.update_same]
        intro hv
        exact hnc' x (sameUnit_symm hsame) hv
      · rw [Function.update_noteq hyp]
        exact hInv.noDup x y hxy hsame hx'
  · show b.emptyCount - 1 = (zeroCount (Function.update b.cells p v) : ℤ)
    have hzc := zeroCount_update_ne b.cells p v (by omega) hemp
    have hc := hInv.counter
    omega


/-- The board after the clear-if-occupied preamble of `Set`. -/
def clearedAt (R : Fin 81 → Fin 9) (b : Board) (p : Fin 81) : Board :=
  if b.cells p ≠ 0 then (b.clear R (p.val : ℤ)).1 else b

theorem clearedAt_of_empty (R : Fin 81 → Fin 9) (b : Board) (p : Fin 81)
    (h : b.cells p = 0) : clearedAt R b p = b := by
  unfold clearedAt; rw [if_neg (not_not_intro h)]

theorem clearedAt_cells_self (R : Fin 81 → Fin 9) (b : Board) (p : Fin 81) :
    (clearedAt R b p).cells p = 0 := by
  unfold clearedAt
  by_cases h : b.cells p = 0
  · rw [if_neg (not_not_intro h)]; exact h
  · rw [if_pos h, clear_coe_filled R b p h]
    show Function.update b.cells p 0 p = 0
    rw [Function.update_same]

theorem clearedAt_inv (R : Fin 81 → Fin 9) (b : Board) (p : Fin 81)
    (hInv : Inv R b) : Inv R (clearedAt R b p) := by
  unfold clearedAt
  by_cases h : b.cells p = 0
  · rw [if_neg (not_not_intro h)]; exact hInv
  · rw [if_pos h]; exact clear_fst_inv R b _ hInv

/-- Under the invariant, `setChecked` fails with `IllegalMove` exactly on a
unit conflict, and otherwise performs the `SetForce` write-back. -/
theorem setChecked_eq (R : Fin 81 → Fin 9) (b1 : Board) (hInv : Inv R b1)
    (p : Fin 81) (v : ℕ) (h1 : 1 ≤ v) (h9 : v ≤ 9) :
    b1.setChecked R p v =
      if Conflict R b1 p v then (b1, some .illegalMove)
      else (b1.setForce R p v, none) := by
  have hiff := conflict_iff_masks R b1 hInv p v h1 h9
  unfold Board.setChecked
  by_cases hconf : Conflict R b1 p v
  · rw [if_pos hconf]
    rcases hiff.mp hconf with hA | hB | hC
    · rw [if_pos hA]
    · by_cases hA : landU (b1.rowMasks (rowOf p)) (1 <<< (v - 1)) ≠ 0
      · rw [if_pos hA]
      · rw [if_neg hA, if_pos hB]
    · by_cases hA : landU (b1.rowMasks (rowOf p)) (1 <<< (v - 1)) ≠ 0
      · rw [if_pos hA]
      · by_cases hB : landU (b1.colMasks (colOf p)) (1 <<< (v - 1)) ≠ 0
        · rw [if_neg hA, if_pos hB]
        · rw [if_neg hA, if_neg hB, if_pos hC]
  · rw [if_neg hconf]
    have hnone := fun h => hconf (hiff.mpr h)
    rw [if_neg (fun hA => hnone (Or.inl hA)),
      if_neg (fun hB => hnone (Or.inr (Or.inl hB))),
      if_neg (fun hC => hnone (Or.inr (Or.inr hC)))]

/-- `Set` at a validated position and digit is `setChecked` run on the
pre-cleared board. -/
theorem set_coe (R : Fin 81 → Fin 9) (b : Board) (p : Fin 81) (v : ℕ)
    (h1 : 1 ≤ v) (h9 : v ≤ 9) :
    b.set R (p.val : ℤ) (v : ℤ) = (clearedAt R b p).setChecked R p v := by
  unfold Board.set
  rw [dif_pos (posInt_ok p)]
  rw [if_pos (Or.inl ⟨by exact_mod_cast h1, by exact_mod_cast h9⟩)]
  rw [if_neg (by omega : ¬((v:ℤ) = 0))]
  simp only [Int.toNat_natCast, Fin.eta]
  rfl

theorem set_invalid_position (R : Fin 81 → Fin 9) (b : Board) (pos val : ℤ)
    (h : ¬(0 ≤ pos ∧ pos < 81)) : b.set R pos val = (b, some .invalidPosition) := by
  unfold Board.set; rw [dif_neg h]

theorem set_invalid_value (R : Fin 81 → Fin 9) (b : Board) (pos val : ℤ)
    (hpos : 0 ≤ pos ∧ pos < 81) (h : ¬((1 ≤ val ∧ val ≤ 9) ∨ val = 0)) :
    b.set R pos val = (b, some .invalidValue) := by
  unfold Board.set; rw [dif_pos hpos, if_neg h]

theorem set_zero (R : Fin 81 → Fin 9) (b : Board) (pos : ℤ)
    (hpos : 0 ≤ pos ∧ pos < 81) : b.set R pos 0 = b.clear R pos := by
  unfold Board.set
  rw [dif_pos hpos, if_pos (Or.inr rfl), if_pos rfl]

/-- A successful `Set` on an empty cell is exactly a `SetForce`. -/
theorem set_success (R : Fin 81 → Fin 9) (b : Board) (hInv : Inv R b)
    (p : Fin 81) (v : ℕ) (h1 : 1 ≤ v) (h9 : v ≤ 9) (hemp : b.cells p = 0)
    (hnc : ¬Conflict R b p v) :
    b.set R (p.val : ℤ) (v : ℤ) = (b.setForce R p v, none) := by
  rw [set_coe R b p v h1 h9, clearedAt_of_empty R b p hemp,
    setChecked_eq R b hInv p v h1 h9, if_neg hnc]

/-- A conflicting `Set` on an empty cell fails and leaves the board
unchanged. -/
theorem set_conflict (R : Fin 81 → Fin 9) (b : Board) (hInv : Inv R b)
    (p : Fin 81) (v : ℕ) (h1 : 1 ≤ v) (h9 : v ≤ 9) (hemp : b.cells p = 0)
    (hc : Conflict R b p v) :
    b.set R (p.val : ℤ) (v : ℤ) = (b, some .illegalMove) := by
  rw [set_coe R b p v h1 h9, clearedAt_of_empty R b p hemp,
    setChecked_eq R b hInv p v h1 h9, if_pos hc]

/-- `Set` preserves the invariant, whatever the outcome. -/
theorem set_fst_inv (R : Fin 81 → Fin 9) (b : Board) (pos val : ℤ)
    (hInv : Inv R b) : Inv R ((b.set R pos val).1) := by
  rcases posOK_cases pos with h | ⟨p, rfl⟩
  · rw [set_invalid_position R b pos val h]; exact hInv
  by_cases hval : (1 ≤ val ∧ val ≤ 9) ∨ val = 0
  · rcases hval with ⟨hv1, hv9⟩ | rfl
    · have hvnat : val = ((val.toNat : ℕ) : ℤ) := by omega
      rw [hvnat, set_coe R b p val.toNat (by omega) (by omega)]
      have hic := clearedAt_inv R b p hInv
      rw [setChecked_eq R _ hic p val.toNat (by omega) (by omega)]
      by_cases hconf : Conflict R (clearedAt R b p) p val.toNat
      · rw [if_pos hconf]; exact hic
      · rw [if_neg hconf]
        exact setForce_inv R _ hic p val.toNat (by omega) (by omega)
          (clearedAt_cells_self R b p) hconf
    · rw [set_zero R b _ (posInt_ok p)]
      exact clear_fst_inv R b _ hInv
  · rw [set_invalid_value R b _ val (posInt_ok p) hval]; exact hInv

/-! ## `IsValid` returns true on boards satisfying the invariant -/

/-- The check-mask family `M` of the `IsValid` scan holds exactly the digits
of the already-scanned cells `done`, for the unit assignment `u`. -/
def ScanChar1 (u : Fin 81 → Fin 9) (cells : Fin 81 → ℕ) (done : List (Fin 81))
    (M : Fin 9 → ℕ) : Prop :=
  ∀ (r : Fin 9) (k : ℕ), k < 9 →
    ((M r).testBit k = true ↔ ∃ p ∈ done, u p = r ∧ cells p = k + 1)

theorem scanChar1_skip {u : Fin 81 → Fin 9} {cells : Fin 81 → ℕ}
    {done : List (Fin 81)} {M : Fin 9 → ℕ} (h : ScanChar1 u cells done M)
    (p : Fin 81) (hp : cells p = 0) : ScanChar1 u cells (done ++ [p]) M := by
  intro r k hk
  rw [h r k hk]
  constructor
  · rintro ⟨q, hq, hqr, hqv⟩
    exact ⟨q, List.mem_append_left _ hq, hqr, hqv⟩
  · rintro ⟨q, hq, hqr, hqv⟩
    rcases List.mem_append.mp hq with hq | hq
    · exact ⟨q, hq, hqr, hqv⟩
    · rw [List.mem_singleton.mp hq] at hqv
      omega

theorem scanChar1_step {u : Fin 81 → Fin 9} {cells : Fin 81 → ℕ}
    {done : List (Fin 81)} {M : Fin 9 → ℕ} (h : ScanChar1 u cells done M)
    (p : Fin 81) (v : ℕ) (hv : cells p = v) (h1 : 1 ≤ v) (h9 : v ≤ 9) :
    ScanChar1 u cells (done ++ [p])
      (Function.update M (u p) (lorU (M (u p)) (1 <<< (v - 1)))) := by
  intro r k hk
  by_cases hr : r = u p
  · subst hr
    rw [Function.update_same, lorU_shift_testBit _ _ _ (by omega)]
    by_cases hkv : v - 1 = k
    · have hd : decide (v - 1 = k) = true := by simp [hkv]
      rw [hd]
      simp only [Bool.or_true, true_iff]
      exact ⟨p, List.mem_append_right _ (List.mem_singleton_self p), rfl, by omega⟩
    · have hd : decide (v - 1 = k) = false := by simp [hkv]
      rw [hd]
      simp only [Bool.or_false]
      rw [h (u p) k hk]
      constructor
      · rintro ⟨q, hq, hqr, hqv⟩
        exact ⟨q, List.mem_append_left _ hq, hqr, hqv⟩
      · rintro ⟨q, hq, hqr, hqv⟩
        rcases List.mem_append.mp hq with hq | hq
        · exact ⟨q, hq, hqr, hqv⟩
        · rw [List.mem_singleton.mp hq] at hqv
          omega
  · rw [Function.update_noteq hr, h r k hk]
    constructor
    · rintro ⟨q, hq, hqr, hqv⟩
      exact ⟨q, List.mem_append_left _ hq, hqr, hqv⟩
    · rintro ⟨q, hq, hqr, hqv⟩
      rcases List.mem_append.mp hq with hq | hq
      · exact ⟨q, hq, hqr, hqv⟩
      · rw [List.mem_singleton.mp hq] at hqr
        exact absurd hqr.symm hr

/-- Main loop invariant of the `IsValid` scan: starting from masks that
characterize the scanned prefix, on a duplicate-free board the scan never
fails. -/
theorem isValid_go (R : Fin 81 → Fin 9) (b : Board) (hInv : Inv R b) :
    ∀ (l done : List (Fin 81)) (rc cc gc : Fin 9 → ℕ),
      l.Nodup → (∀ p ∈ l, p ∉ done) →
      ScanChar1 rowOf b.cells done rc →
      ScanChar1 colOf b.cells done cc →
      ScanChar1 R b.cells done gc →
      ∃ st, l.foldl (isValidStep R b) (some (rc, cc, gc)) = some st := by
  intro l
  induction l with
  | nil => intro done rc cc gc _ _ _ _ _; exact ⟨(rc, cc, gc), rfl⟩
  | cons p rest ih =>
    intro done rc cc gc hnd hdis hrc hcc hgc
    have hpnotin : p ∉ done := hdis p (List.mem_cons_self p rest)
    have hrestnd : rest.Nodup := (List.nodup_cons.mp hnd).2
    have hpnrest : p ∉ rest := (List.nodup_cons.mp hnd).1
    rw [List.foldl_cons]
    by_cases hemp : b.cells p = 0
    · have hstep : isValidStep R b (some (rc, cc, gc)) p = some (rc, cc, gc) := by
        unfold isValidStep
        simp [hemp]
      rw [hstep]
      exact ih (done ++ [p]) rc cc gc hrestnd
        (fun q hq => by
          intro hmem
          rcases List.mem_append.mp hmem with hmem | hmem
          · exact hdis q (List.mem_cons_of_mem p hq) hmem
          · exact hpnrest (List.mem_singleton.mp hmem ▸ hq))
        (scanChar1_skip hrc p hemp) (scanChar1_skip hcc p hemp)
        (scanChar1_skip hgc p hemp)
    · set v := b.cells p with hvdef
      have h1 : 1 ≤ v := by omega
      have h9 : v ≤ 9 := hInv.cellsLe p
      have hnofail : ¬(landU (rc (rowOf p)) (1 <<< (v - 1)) ≠ 0 ∨
          landU (cc (colOf p)) (1 <<< (v - 1)) ≠ 0 ∨
          landU (gc (R p)) (1 <<< (v - 1)) ≠ 0) := by
        rintro (hA | hA | hA)
        · rw [landU_shift_ne_zero _ _ (by omega), hrc (rowOf p) (v - 1) (by omega)] at hA
          obtain ⟨q, hq, hqr, hqv⟩ := hA
          have hqp : p ≠ q := fun hpq => hpnotin (hpq ▸ hq)
          exact hInv.noDup p q hqp (Or.inl hqr.symm) (by omega) (by omega)
        · rw [landU_shift_ne_zero _ _ (by omega), hcc (colOf p) (v - 1) (by omega)] at hA
          obtain ⟨q, hq, hqr, hqv⟩ := hA
          have hqp : p ≠ q := fun hpq => hpnotin (hpq ▸ hq)
          exact hInv.noDup p q hqp (Or.inr (Or.inl hqr.symm)) (by omega) (by omega)
        · rw [landU_shift_ne_zero _ _ (by omega), hgc (R p) (v - 1) (by omega)] at hA
          obtain ⟨q, hq, hqr, hqv⟩ := hA
          have hqp : p ≠ q := fun hpq => hpnotin (hpq ▸ hq)
          exact hInv.noDup p q hqp (Or.inr (Or.inr hqr.symm)) (by omega) (by omega)
      have hstep : isValidStep R b (some (rc, cc, gc)) p =
          some (Function.update rc (rowOf p) (lorU (rc (rowOf p)) (1 <<< (v - 1))),
            Function.update cc (colOf p) (lorU (cc (colOf p)) (1 <<< (v - 1))),
            Function.update gc (R p) (lorU (gc (R p)) (1 <<< (v - 1)))) := by
        unfold isValidStep
        rw [← hvdef]
        simp only [if_neg hemp, if_neg hnofail]
      rw [hstep]
      exact ih (done ++ [p]) _ _ _ hrestnd
        (fun q hq => by
          intro hmem
          rcases List.mem_append.mp hmem with hmem | hmem
          · exact hdis q (List.mem_cons_of_mem p hq) hmem
          · exact hpnrest (List.mem_singleton.mp hmem ▸ hq))
        (scanChar1_step hrc p v hvdef.symm h1 h9)
        (scanChar1_step hcc p v hvdef.symm h1 h9)
        (scanChar1_step hgc p v hvdef.symm h1 h9)

/-- A board satisfying the invariant passes `IsValid`. -/
theorem isValid_of_inv (R : Fin 81 → Fin 9) (b : Board) (hInv : Inv R b) :
    b.isValid R = true := by
  unfold Board.isValid
  have hinit : ∀ (u : Fin 81 → Fin 9),
      ScanChar1 u b.cells [] (fun _ => 0) := by
    intro u r k hk
    simp [Nat.zero_testBit]
  obtain ⟨st, hst⟩ := isValid_go R b hInv (List.finRange 81) [] _ _ _
    (List.nodup_finRange 81) (fun p _ hmem => (List.not_mem_nil p) hmem)
    (hinit rowOf) (hinit colOf) (hinit R)
  rw [hst]
  rfl

/-! ## `NewFromString` (parsing the 81-byte wire format) -/

/-- Errors of `NewFromString` (board.go): wrong length, bad character, or a
failing `Set` whose error is wrapped. -/
inductive PErr where
  | badLength (n : ℕ)
  | badChar (pos ch : ℕ)
  | setFailed (pos : ℕ) (e : BErr)
deriving DecidableEq, Repr

/-- One iteration of the `NewFromString` loop at position `p`, dispatching
on the byte as the Go switch does (46 = `'.'`, 48 = `'0'`,
49..57 = `'1'`..`'9'`). -/
def parseStep (R : Fin 81 → Fin 9) (s : List ℕ) (b : Board) (p : Fin 81) :
    Except PErr Board :=
  let ch := s.getD p.val 0
  if ch = 46 ∨ ch = 48 then .ok b
  else if 49 ≤ ch ∧ ch ≤ 57 then
    match b.set R (p.val : ℤ) ((ch - 48 : ℕ) : ℤ) with
    | (b', none) => .ok b'
    | (_, some e) => .error (.setFailed p.val e)
  else .error (.badChar p.val ch)

/-- The `for pos := range CellCount` loop of `NewFromString`, stopping at
the first error. -/
def parseLoop (R : Fin 81 → Fin 9) (s : List ℕ) :
    List (Fin 81) → Board → Except PErr Board
  | [], b => .ok b
  | p :: rest, b =>
    match parseStep R s b p with
    | .ok b' => parseLoop R s rest b'
    | .error e => .error e

/-- `NewFromString` (board.go): length check, then the position loop from an
empty board. -/
def newFromString (R : Fin 81 → Fin 9) (s : List ℕ) : Except PErr Board :=
  if s.length = 81 then parseLoop R s (List.finRange 81) Board.new
  else .error (.badLength s.length)

/-- A byte accepted by the parser: `'.'`, or `'0'`..`'9'`. -/
def validChar (ch : ℕ) : Prop := ch = 46 ∨ (48 ≤ ch ∧ ch ≤ 57)

instance (ch : ℕ) : Decidable (validChar ch) := by unfold validChar; infer_instance

/-- Digit denoted by a byte (0 for `'.'` and `'0'`). -/
def charDigit (ch : ℕ) : ℕ := if ch = 46 ∨ ch = 48 then 0 else ch - 48

/-- Cell assignment induced by a string. -/
def strCells (s : List ℕ) : Fin 81 → ℕ := fun p => charDigit (s.getD p.val 0)

/-- The digits of a string are mutually consistent under the layout's
constraints: no two cells of a unit carry equal nonzero digits. -/
def strConsistent (R : Fin 81 → Fin 9) (s : List ℕ) : Prop :=
  ∀ p q : Fin 81, p ≠ q → sameUnit R p q → strCells s p ≠ 0 →
    strCells s p ≠ strCells s q

instance (R : Fin 81 → Fin 9) (s : List ℕ) : Decidable (strConsistent R s) := by
  unfold strConsistent; infer_instance

/-- Completeness of the parse loop: on a consistent string with valid
characters, every `Set` succeeds and the final cells are the induced
assignment. -/
theorem parseLoop_ok (R : Fin 81 → Fin 9) (s : List ℕ)
    (hcons : strConsistent R s) :
    ∀ (l : List (Fin 81)) (b : Board), l.Nodup →
      Inv R b → (∀ p ∈ l, b.cells p = 0) →
      (∀ p : Fin 81, p ∉ l → b.cells p = strCells s p) →
      (∀ p ∈ l, validChar (s.getD p.val 0)) →
      ∃ b', parseLoop R s l b = .ok b' ∧ Inv R b' ∧
        ∀ p, b'.cells p = strCells s p := by
  intro l
  induction l with
  | nil =>
    intro b _ hInv _ hoff _
    exact ⟨b, rfl, hInv, fun p => hoff p (List.not_mem_nil p)⟩
  | cons p rest ih =>
    intro b hnd hInv hzero hoff hvalid
    have hpz : b.cells p = 0 := hzero p (List.mem_cons_self p rest)
    have hrestnd : rest.Nodup := (List.nodup_cons.mp hnd).2
    have hpnrest : p ∉ rest := (List.nodup_cons.mp hnd).1
    have hvc : validChar (s.getD p.val 0) := hvalid p (List.mem_cons_self p rest)
    set ch := s.getD p.val 0 with hch
    by_cases hskip : ch = 46 ∨ ch = 48
    · have hstep : parseStep R s b p = .ok b := by
        unfold parseStep
        rw [← hch, if_pos hskip]
      have hoff' : ∀ q : Fin 81, q ∉ rest → b.cells q = strCells s q := by
        intro q hq
        by_cases hqp : q = p
        · subst hqp
          rw [hpz]
          unfold strCells charDigit
          rw [← hch, if_pos hskip]
        · exact hoff q (fun hmem => by
            rcases List.mem_cons.mp hmem with h | h
            · exact hqp h
            · exact hq h)
      obtain ⟨b', hb', hInvb', hcells⟩ := ih b hrestnd hInv
        (fun q hq => hzero q (List.mem_cons_of_mem p hq)) hoff'
        (fun q hq => hvalid q (List.mem_cons_of_mem p hq))
      refine ⟨b', ?_, hInvb', hcells⟩
      simp only [parseLoop]
      rw [hstep]
      exact hb'
    · have hd : 49 ≤ ch ∧ ch ≤ 57 := by
        rcases hvc with h46 | ⟨h48, h57⟩
        · exact absurd (Or.inl h46) hskip
        · refine ⟨?_, h57⟩
          rcases Nat.eq_or_lt_of_le h48 with heq | hlt
          · exact absurd (Or.inr heq.symm) hskip
          · omega
      set v : ℕ := ch - 48 with hv
      have hv1 : 1 ≤ v := by omega
      have hv9 : v ≤ 9 := by omega
      have hsp : strCells s p = v := by
        unfold strCells charDigit
        rw [← hch, if_neg hskip, hv]
      have hnc : ¬ Conflict R b p v := by
        rintro ⟨q, hsu, hqv⟩
        have hql : q ∉ p :: rest := fun hql => by
          have := hzero q hql; omega
        have hq : b.cells q = strCells s q := hoff q hql
        have hqp : q ≠ p := fun hqp => by subst hqp; omega
        exact (hcons p q (Ne.symm hqp) hsu (by rw [hsp]; omega))
          (by rw [hsp, ← hq, hqv])
      have hset : b.set R (p.val : ℤ) (v : ℤ) = (b.setForce R p v, none) :=
        set_success R b hInv p v hv1 hv9 hpz hnc
      have hstep : parseStep R s b p = .ok (b.setForce R p v) := by
        unfold parseStep
        rw [← hch, if_neg hskip, if_pos hd, ← hv, hset]
      have hInv' : Inv R (b.setForce R p v) := setForce_inv R b hInv p v hv1 hv9 hpz hnc
      have hzero' : ∀ q ∈ rest, (b.setForce R p v).cells q = 0 := by
        intro q hq
        have hqp : q ≠ p := fun h => hpnrest (h ▸ hq)
        show Function.update b.cells p v q = 0
        rw [Function.update_noteq hqp]
        exact hzero q (List.mem_cons_of_mem p hq)
      have hoff' : ∀ q : Fin 81, q ∉ rest → (b.setForce R p v).cells q = strCells s q := by
        intro q hq
        show Function.update b.cells p v q = strCells s q
        by_cases hqp : q = p
        · subst hqp
          rw [Function.update_same, hsp]
        · rw [Function.update_noteq hqp]
          exact hoff q (fun hmem => by
            rcases List.mem_cons.mp hmem with h | h
            · exact hqp h
            · exact hq h)
      obtain ⟨b', hb', hInvb', hcells⟩ := ih (b.setForce R p v) hrestnd hInv' hzero' hoff'
        (fun q hq => hvalid q (List.mem_cons_of_mem p hq))
      refine ⟨b', ?_, hInvb', hcells⟩
      simp only [parseLoop]
      rw [hstep]
      exact hb'

/-- Soundness of the parse loop: a successful run implies valid characters,
the induced values on processed positions, and untouched cells elsewhere. -/
theorem parseLoop_sound (R : Fin 81 → Fin 9) (s : List ℕ) :
    ∀ (l : List (Fin 81)) (b b' : Board), l.Nodup →
      Inv R b → (∀ p ∈ l, b.cells p = 0) →
      parseLoop R s l b = .ok b' →
      Inv R b' ∧
      (∀ p ∈ l, validChar (s.getD p.val 0) ∧ b'.cells p = strCells s p) ∧
      (∀ p : Fin 81, p ∉ l → b'.cells p = b.cells p) := by
  intro l
  induction l with
  | nil =>
    intro b b' _ hInv _ heq
    cases heq
    exact ⟨hInv, fun p hp => absurd hp (List.not_mem_nil p), fun p _ => rfl⟩
  | cons p rest ih =>
    intro b b' hnd hInv hzero heq
    have hpz : b.cells p = 0 := hzero p (List.mem_cons_self p rest)
    have hrestnd : rest.Nodup := (List.nodup_cons.mp hnd).2
    have hpnrest : p ∉ rest := (List.nodup_cons.mp hnd).1
    have heq' : (match parseStep R s b p with
        | .ok b2 => parseLoop R s rest b2
        | .error e => .error e) = .ok b' := heq
    set ch := s.getD p.val 0 with hch
    by_cases hskip : ch = 46 ∨ ch = 48
    · have hstep : parseStep R s b p = .ok b := by
        unfold parseStep; rw [← hch, if_pos hskip]
      rw [hstep] at heq'
      obtain ⟨hInv', hl, hout⟩ := ih b b' hrestnd hInv
        (fun q hq => hzero q (List.mem_cons_of_mem p hq)) heq'
      refine ⟨hInv', ?_, ?_⟩
      · intro q hq
        rcases List.mem_cons.mp hq with rfl | hq'
        · refine ⟨?_, ?_⟩
          · rcases hskip with h | h
            · exact Or.inl h
            · exact Or.inr (by omega)
          · rw [hout q hpnrest, hpz]
            unfold strCells charDigit
            rw [← hch, if_pos hskip]
        · exact hl q hq'
      · intro q hq
        exact hout q (fun h => hq (List.mem_cons_of_mem p h))
    · by_cases hdig : 49 ≤ ch ∧ ch ≤ 57
      · set v : ℕ := ch - 48 with hv
        have hv1 : 1 ≤ v := by omega
        have hv9 : v ≤ 9 := by omega
        by_cases hnc : Conflict R b p v
        · have hset := set_conflict R b hInv p v hv1 hv9 hpz hnc
          have hstep : parseStep R s b p = .error (.setFailed p.val .illegalMove) := by
            unfold parseStep; rw [← hch, if_neg hskip, if_pos hdig, ← hv, hset]
          rw [hstep] at heq'
          cases heq'
        · have hset := set_success R b hInv p v hv1 hv9 hpz hnc
          have hstep : parseStep R s b p = .ok (b.setForce R p v) := by
            unfold parseStep; rw [← hch, if_neg hskip, if_pos hdig, ← hv, hset]
          rw [hstep] at heq'
          have hInv' := setForce_inv R b hInv p v hv1 hv9 hpz hnc
          have hzero' : ∀ q ∈ rest, (b.setForce R p v).cells q = 0 := by
            intro q hq
            have hqp : q ≠ p := fun h => hpnrest (h ▸ hq)
            show Function.update b.cells p v q = 0
            rw [Function.update_noteq hqp]
            exact hzero q (List.mem_cons_of_mem p hq)
          obtain ⟨hInvb', hl, hout⟩ := ih _ b' hrestnd hInv' hzero' heq'
          refine ⟨hInvb', ?_, ?_⟩
          · intro q hq
            rcases List.mem_cons.mp hq with rfl | hq'
            · refine ⟨Or.inr (by omega), ?_⟩
              rw [hout q hpnrest]
              show Function.update b.cells q v q = strCells s q
              rw [Function.update_same]
              unfold strCells charDigit
              rw [← hch, if_neg hskip, hv]
            · exact hl q hq'
          · intro q hq
            have hqp : q ≠ p := fun h => hq (h ▸ List.mem_cons_self p rest)
            rw [hout q (fun h => hq (List.mem_cons_of_mem p h))]
            show Function.update b.cells p v q = b.cells q
            rw [Function.update_noteq hqp]
      · have hstep : parseStep R s b p = .error (.badChar p.val ch) := by
          unfold parseStep; rw [← hch, if_neg hskip, if_neg hdig]
        rw [hstep] at heq'
        cases heq'

/-- Error characterization of the parse loop: failures are bad characters
(reported with the offending byte) or an `IllegalMove` wrapped by a failing
`Set`. -/
theorem parseLoop_err (R : Fin 81 → Fin 9) (s : List ℕ) :
    ∀ (l : List (Fin 81)) (b : Board) (e : PErr), l.Nodup →
      Inv R b → (∀ p ∈ l, b.cells p = 0) →
      parseLoop R s l b = .error e →
      (∃ i ch, e = .badChar i ch ∧ ch = s.getD i 0 ∧ ¬ validChar ch ∧ i < 81) ∨
      (∃ i, e = .setFailed i .illegalMove ∧ i < 81) := by
  intro l
  induction l with
  | nil => intro b e _ _ _ heq; cases heq
  | cons p rest ih =>
    intro b e hnd hInv hzero heq
    have hpz : b.cells p = 0 := hzero p (List.mem_cons_self p rest)
    have hrestnd : rest.Nodup := (List.nodup_cons.mp hnd).2
    have hpnrest : p ∉ rest := (List.nodup_cons.mp hnd).1
    have heq' : (match parseStep R s b p with
        | .ok b2 => parseLoop R s rest b2
        | .error e2 => .error e2) = .error e := heq
    set ch := s.getD p.val 0 with hch
    by_cases hskip : ch = 46 ∨ ch = 48
    · have hstep : parseStep R s b p = .ok b := by
        unfold parseStep; rw [← hch, if_pos hskip]
      rw [hstep] at heq'
      exact ih b e hrestnd hInv (fun q hq => hzero q (List.mem_cons_of_mem p hq)) heq'
    · by_cases hdig : 49 ≤ ch ∧ ch ≤ 57
      · set v : ℕ := ch - 48 with hv
        have hv1 : 1 ≤ v := by omega
        have hv9 : v ≤ 9 := by omega
        by_cases hnc : Conflict R b p v
        · have hset := set_conflict R b hInv p v hv1 hv9 hpz hnc
          have hstep : parseStep R s b p = .error (.setFailed p.val .illegalMove) := by
            unfold parseStep; rw [← hch, if_neg hskip, if_pos hdig, ← hv, hset]
          rw [hstep] at heq'
          cases heq'
          exact Or.inr ⟨p.val, rfl, p.isLt⟩
        · have hset := set_success R b hInv p v hv1 hv9 hpz hnc
          have hstep : parseStep R s b p = .ok (b.setForce R p v) := by
            unfold parseStep; rw [← hch, if_neg hskip, if_pos hdig, ← hv, hset]
          rw [hstep] at heq'
          have hInv' := setForce_inv R b hInv p v hv1 hv9 hpz hnc
          have hzero' : ∀ q ∈ rest, (b.setForce R p v).cells q = 0 := by
            intro q hq
            have hqp : q ≠ p := fun h => hpnrest (h ▸ hq)
            show Function.update b.cells p v q = 0
            rw [Function.update_noteq hqp]
            exact hzero q (List.mem_cons_of_mem p hq)
          exact ih _ e hrestnd hInv' hzero' heq'
      · have hstep : parseStep R s b p = .error (.badChar p.val ch) := by
          unfold parseStep; rw [← hch, if_neg hskip, if_neg hdig]
        rw [hstep] at heq'
        cases heq'
        refine Or.inl ⟨p.val, ch, rfl, hch, ?_, p.isLt⟩
        intro hvc
        push_neg at hskip hdig
        rcases hvc with h | h
        · exact hskip.1 h
        · omega

/-- What a successful `NewFromString` guarantees. -/
theorem newFromString_ok (R : Fin 81 → Fin 9) (s : List ℕ) (b : Board)
    (h : newFromString R s = .ok b) :
    s.length = 81 ∧ Inv R b ∧ (∀ p, b.cells p = strCells s p) ∧
    (∀ p : Fin 81, validChar (s.getD p.val 0)) ∧ strConsistent R s := by
  unfold newFromString at h
  by_cases hlen : s.length = 81
  · rw [if_pos hlen] at h
    obtain ⟨hInv, hl, -⟩ := parseLoop_sound R s (List.finRange 81) Board.new b
      (List.nodup_finRange 81) (inv_new R) (fun p _ => rfl) h
    have hcells : ∀ p, b.cells p = strCells s p :=
      fun p => (hl p (List.mem_finRange p)).2
    refine ⟨hlen, hInv, hcells, fun p => (hl p (List.mem_finRange p)).1, ?_⟩
    intro p q hpq hsu hzp
    rw [← hcells p, ← hcells q]
    rw [← hcells p] at hzp
    exact hInv.noDup p q hpq hsu hzp
  · rw [if_neg hlen] at h
    cases h

/-! ## Reachable boards and the claim theorems C2, C5, C10 -/

/-- Boards reachable by the public constructors (`New`, successful
`NewFromString`) and sequences of successful `Set`/`Clear` calls. -/
inductive Reachable (R : Fin 81 → Fin 9) : Board → Prop where
  | new : Reachable R Board.new
  | fromStr (s : List ℕ) (b : Board) : newFromString R s = .ok b → Reachable R b
  | setStep (b : Board) (pos val : ℤ) (b' : Board) : Reachable R b →
      b.set R pos val = (b', none) → Reachable R b'
  | clearStep (b : Board) (pos : ℤ) (b' : Board) : Reachable R b →
      b.clear R pos = (b', none) → Reachable R b'

theorem reachable_inv (R : Fin 81 → Fin 9) (b : Board) (h : Reachable R b) :
    Inv R b := by
  induction h with
  | new => exact inv_new R
  | fromStr s b hok => exact (newFromString_ok R s b hok).2.1
  | setStep b pos val b' _ heq ih =>
    have : b' = (b.set R pos val).1 := by rw [heq]
    rw [this]
    exact set_fst_inv R b pos val ih
  | clearStep b pos b' _ heq ih =>
    have : b' = (b.clear R pos).1 := by rw [heq]
    rw [this]
    exact clear_fst_inv R b pos ih

/-- C2: after any sequence of successful `Set`/`Clear` calls on a board
created by `New` or `NewFromString`, `IsValid` returns true, every unit mask
holds exactly the bits of the digits placed in that unit (so each filled
cell's bit is set and no bit is set without a corresponding filled cell),
and `emptyCount` equals the number of cells holding 0. -/
theorem c2_reachable_invariants (R : Fin 81 → Fin 9) (b : Board)
    (hreach : Reachable R b) :
    b.isValid R = true ∧
    BitChar rowOf b.rowMasks b.cells ∧
    BitChar colOf b.colMasks b.cells ∧
    BitChar R b.regionMasks b.cells ∧
    b.emptyCount = (zeroCount b.cells : ℤ) := by
  have hInv := reachable_inv R b hreach
  exact ⟨isValid_of_inv R b hInv, hInv.rowBit, hInv.colBit, hInv.regBit, hInv.counter⟩

/-- Witness for C2 at the empty board over the standard layout. -/
theorem c2_reachable_invariants_witness :
    Reachable standardRegion Board.new ∧
    (Board.new.isValid standardRegion = true ∧
     BitChar rowOf Board.new.rowMasks Board.new.cells ∧
     BitChar colOf Board.new.colMasks Board.new.cells ∧
     BitChar standardRegion Board.new.regionMasks Board.new.cells ∧
     Board.new.emptyCount = (zeroCount Board.new.cells : ℤ)) :=
  ⟨Reachable.new, c2_reachable_invariants standardRegion Board.new Reachable.new⟩

theorem toString_length (b : Board) : b.toString.length = 81 := by
  unfold Board.toString
  rw [List.length_map, List.length_finRange]

theorem toString_getD (b : Board) (p : Fin 81) :
    b.toString.getD p.val 0 = if b.cells p = 0 then 46 else 48 + b.cells p := by
  unfold Board.toString
  have hlt : p.val < ((List.finRange 81).map
      (fun p => if b.cells p = 0 then 46 else 48 + b.cells p)).length := by
    rw [List.length_map, List.length_finRange]; exact p.isLt
  rw [List.getD_eq_getElem?_getD, List.getElem?_eq_getElem hlt]
  simp [List.getElem_map, List.getElem_finRange]

/-- The string emitted for a board satisfying the invariant induces the
board's own cells. -/
theorem strCells_toString (R : Fin 81 → Fin 9) (b : Board) (hInv : Inv R b) :
    ∀ p, strCells b.toString p = b.cells p := by
  intro p
  unfold strCells charDigit
  rw [toString_getD]
  by_cases h : b.cells p = 0
  · rw [if_pos h, if_pos (Or.inl rfl), h]
  · have h9 := hInv.cellsLe p
    rw [if_neg h, if_neg (by omega)]
    omega

/-- C5: round-trip of the wire format.  For every reachable board `B`:
`B.String()` is 81 bytes, row-major, `'.'` (46) for empty cells and
`'1'..'9'` (49..57) for filled cells; `NewFromString(B.String(), layout)`
succeeds; and the parsed board's `String()` equals `B.String()`. -/
theorem c5_round_trip (R : Fin 81 → Fin 9) (b : Board) (hreach : Reachable R b) :
    b.toString.length = 81 ∧
    (∀ p : Fin 81, b.toString.getD p.val 0 =
      if b.cells p = 0 then 46 else 48 + b.cells p) ∧
    (∀ p : Fin 81, b.cells p ≠ 0 →
      49 ≤ b.toString.getD p.val 0 ∧ b.toString.getD p.val 0 ≤ 57) ∧
    (∃ b', newFromString R b.toString = .ok b' ∧ b'.toString = b.toString) := by
  have hInv := reachable_inv R b hreach
  have hstr := strCells_toString R b hInv
  refine ⟨toString_length b, fun p => toString_getD b p, ?_, ?_⟩
  · intro p hp
    rw [toString_getD, if_neg hp]
    have := hInv.cellsLe p
    omega
  · have hcons : strConsistent R b.toString := by
      intro p q hpq hsu hzp
      rw [hstr p, hstr q]
      rw [hstr p] at hzp
      exact hInv.noDup p q hpq hsu hzp
    have hvalid : ∀ p ∈ List.finRange 81, validChar (b.toString.getD p.val 0) := by
      intro p _
      rw [toString_getD]
      by_cases h : b.cells p = 0
      · rw [if_pos h]; exact Or.inl rfl
      · rw [if_neg h]
        have := hInv.cellsLe p
        exact Or.inr (by omega)
    obtain ⟨b', hb', hInvb', hcells⟩ := parseLoop_ok R b.toString hcons
      (List.finRange 81) Board.new (List.nodup_finRange 81) (inv_new R)
      (fun p _ => rfl) (fun p hp => absurd (List.mem_finRange p) hp) hvalid
    refine ⟨b', ?_, ?_⟩
    · unfold newFromString
      rw [if_pos (toString_length b)]
      exact hb'
    · unfold Board.toString
      apply List.map_congr_left
      intro p _
      rw [hcells p, hstr p]

/-- Witness for C5 at the empty board over the standard layout. -/
theorem c5_round_trip_witness :
    Reachable standardRegion Board.new ∧
    (Board.new.toString.length = 81 ∧
     (∀ p : Fin 81, Board.new.toString.getD p.val 0 =
       if Board.new.cells p = 0 then 46 else 48 + Board.new.cells p) ∧
     (∀ p : Fin 81, Board.new.cells p ≠ 0 →
       49 ≤ Board.new.toString.getD p.val 0 ∧ Board.new.toString.getD p.val 0 ≤ 57) ∧
     (∃ b', newFromString standardRegion Board.new.toString = .ok b' ∧
       b'.toString = Board.new.toString)) :=
  ⟨Reachable.new, c5_round_trip standardRegion Board.new Reachable.new⟩

/-- C10: `NewFromString(s, layout)` succeeds iff `s` has length 81, every
byte is `'.'`, `'0'` or `'1'..'9'`, and the digits are mutually consistent
under the layout's constraints.  Every returned board passes `IsValid` and
holds exactly the induced digits; failures are precisely characterized, and
a duplicate digit in an 81-byte string of valid characters yields an error
wrapping `IllegalMove`. -/
theorem c10_newFromString_spec (R : Fin 81 → Fin 9) (s : List ℕ) :
    ((∃ b, newFromString R s = .ok b) ↔
      (s.length = 81 ∧ (∀ p : Fin 81, validChar (s.getD p.val 0)) ∧
        strConsistent R s)) ∧
    (match newFromString R s with
     | .ok b => b.isValid R = true ∧ ∀ p, b.cells p = strCells s p
     | .error (.badLength n) => n = s.length ∧ s.length ≠ 81
     | .error (.badChar i ch) =>
        s.length = 81 ∧ ch = s.getD i 0 ∧ ¬ validChar ch ∧ i < 81
     | .error (.setFailed i e) => s.length = 81 ∧ e = .illegalMove ∧ i < 81) := by
  constructor
  · constructor
    · rintro ⟨b, hb⟩
      obtain ⟨hlen, _, _, hvalid, hcons⟩ := newFromString_ok R s b hb
      exact ⟨hlen, hvalid, hcons⟩
    · rintro ⟨hlen, hvalid, hcons⟩
      obtain ⟨b', hb', -, -⟩ := parseLoop_ok R s hcons (List.finRange 81) Board.new
        (List.nodup_finRange 81) (inv_new R) (fun p _ => rfl)
        (fun p hp => absurd (List.mem_finRange p) hp)
        (fun p _ => hvalid p)
      refine ⟨b', ?_⟩
      unfold newFromString
      rw [if_pos hlen]
      exact hb'
  · cases hres : newFromString R s with
    | ok b =>
      obtain ⟨-, hInv, hcells, -, -⟩ := newFromString_ok R s b hres
      exact ⟨isValid_of_inv R b hInv, hcells⟩
    | error e =>
      unfold newFromString at hres
      by_cases hlen : s.length = 81
      · rw [if_pos hlen] at hres
        have herr := parseLoop_err R s (List.finRange 81) Board.new e
          (List.nodup_finRange 81) (inv_new R) (fun p _ => rfl) hres
        rcases herr with ⟨i, ch, rfl, hch, hvc, hi⟩ | ⟨i, rfl, hi⟩
        · exact ⟨hlen, hch, hvc, hi⟩
        · exact ⟨hlen, rfl, hi⟩
      · rw [if_neg hlen] at hres
        cases hres
        exact ⟨rfl, hlen⟩

/-- Witness for C10 at a string with a duplicated digit in row 0: the parse
fails with a wrapped `IllegalMove`. -/
theorem c10_newFromString_spec_witness :
    (match newFromString standardRegion (49 :: 49 :: List.replicate 79 46) with
     | .ok b => b.isValid standardRegion = true ∧
        ∀ p, b.cells p = strCells (49 :: 49 :: List.replicate 79 46) p
     | .error (.badLength n) => n = (49 :: 49 :: List.replicate 79 46).length ∧
        (49 :: 49 :: List.replicate 79 46).length ≠ 81
     | .error (.badChar i ch) => (49 :: 49 :: List.replicate 79 46).length = 81 ∧
        ch = (49 :: 49 :: List.replicate 79 46).getD i 0 ∧ ¬ validChar ch ∧ i < 81
     | .error (.setFailed i e) => (49 :: 49 :: List.replicate 79 46).length = 81 ∧
        e = .illegalMove ∧ i < 81) :=
  (c10_newFromString_spec standardRegion (49 :: 49 :: List.replicate 79 46)).2

/-! ## Layout construction and validation (layout.go) -/

/-- Errors of `NewLayout` (layout.go): out-of-range region entry, a region
receiving more than 9 cells, a region with a wrong final count, or a region
that is not orthogonally contiguous (reported with the number of reachable
cells and the BFS start cell, as in the source's error message). -/
inductive LErr where
  | outOfRange (pos : ℕ) (r : ℤ)
  | tooMany (r : ℕ)
  | wrongCount (r cnt : ℕ)
  | notContiguous (r visited first : ℕ)
deriving DecidableEq, Repr

/-- Index of a validated region entry (`0 ≤ r ≤ 8`, so the `% 9` is the
identity and only makes the conversion total). -/
def regIdx (r : ℤ) : Fin 9 := ⟨r.toNat % 9, Nat.mod_lt _ (by omega)⟩

/-- One step of `buildRegionToCells` at position `p`: validate the entry,
reject a 10th cell, and append `p` to its region's cell list. -/
def buildStep (rm : Fin 81 → ℤ)
    (st : Except LErr ((Fin 9 → List ℕ) × (Fin 9 → ℕ))) (p : Fin 81) :
    Except LErr ((Fin 9 → List ℕ) × (Fin 9 → ℕ)) :=
  match st with
  | .error e => .error e
  | .ok (rtc, counts) =>
    if 0 ≤ rm p ∧ rm p ≤ 8 then
      if counts (regIdx (rm p)) ≥ 9 then .error (.tooMany (regIdx (rm p)).val)
      else .ok (Function.update rtc (regIdx (rm p)) (rtc (regIdx (rm p)) ++ [p.val]),
        Function.update counts (regIdx (rm p)) (counts (regIdx (rm p)) + 1))
    else .error (.outOfRange p.val (rm p))

/-- Loop body shared by the per-region check loops of layout.go: stop at the
first error, otherwise run this region's check. -/
def seqStep (f : Fin 9 → Except LErr Unit) (acc : Except LErr Unit) (r : Fin 9) :
    Except LErr Unit :=
  match acc with
  | .error e => .error e
  | .ok _ => f r

/-- `buildRegionToCells` (layout.go): scan the 81 entries building the
inverse table, then check that each region received exactly 9 cells. -/
def buildRegionToCells (rm : Fin 81 → ℤ) : Except LErr (Fin 9 → List ℕ) :=
  match (List.finRange 81).foldl (buildStep rm) (.ok (fun _ => [], fun _ => 0)) with
  | .error e => .error e
  | .ok (rtc, counts) =>
    match (List.finRange 9).foldl
      (seqStep (fun r => if counts r ≠ 9
        then .error (.wrongCount r.val (counts r)) else .ok ())) (Except.ok ()) with
    | .error e => .error e
    | .ok _ => .ok rtc

/-- In-bounds orthogonal neighbor candidates of `pos`, in the order the
source checks them (up, down, left, right). -/
def nbrs (pos : ℕ) : List ℕ :=
  (if 0 < pos / 9 then [(pos / 9 - 1) * 9 + pos % 9] else []) ++
  (if pos / 9 < 8 then [(pos / 9 + 1) * 9 + pos % 9] else []) ++
  (if 0 < pos % 9 then [pos / 9 * 9 + pos % 9 - 1] else []) ++
  (if pos % 9 < 8 then [pos / 9 * 9 + pos % 9 + 1] else [])

/-- The BFS loop of `validateContiguous`: `fuel` bounds the number of
dequeue operations.  The source's queue array holds at most 81 entries and
each cell is enqueued exactly once thanks to the `visited` guard, so a
budget of 81 dequeues always suffices (established by the correctness
proof); on exhaustion the current state is returned.  The four neighbor
candidates of a cell are pairwise distinct, so marking the freshly visited
ones as a batch coincides with the source's sequential marking. -/
def bfsLoop (inR : ℕ → Bool) : ℕ → List ℕ → (ℕ → Bool) → ℕ → ((ℕ → Bool) × ℕ)
  | _, [], visited, count => (visited, count)
  | 0, _ :: _, visited, count => (visited, count)
  | fuel + 1, p :: rest, visited, count =>
    let fresh := (nbrs p).filter (fun nb => inR nb && !visited nb)
    bfsLoop inR fuel (rest ++ fresh)
      (fun i => visited i || decide (i ∈ fresh)) (count + fresh.length)

/-- `validateContiguous` (layout.go): BFS from the region's first cell over
the region's cells; succeed iff all 9 cells are reached. -/
def validateContiguous (rtc : Fin 9 → List ℕ) (region : Fin 9) : Except LErr Unit :=
  let cells := rtc region
  let start := cells.headD 0
  let res := bfsLoop (fun i => decide (i ∈ cells)) 81 [start]
    (fun i => decide (i = start)) 1
  if res.2 ≠ 9 then .error (.notContiguous region.val res.2 start) else .ok ()

/-- `Validate` (layout.go): check contiguity of regions 0..8 in order,
returning the first failure. -/
def layoutValidate (rtc : Fin 9 → List ℕ) : Except LErr Unit :=
  (List.finRange 9).foldl (seqStep (validateContiguous rtc)) (Except.ok ())

/-- A validated Layout (layout.go `Layout`): the region map and its inverse
table. -/
structure LayoutS where
  posToRegion : Fin 81 → ℤ
  regionToCells : Fin 9 → List ℕ

/-- `NewLayout` (layout.go): build and validate. -/
def newLayout (rm : Fin 81 → ℤ) : Except LErr LayoutS :=
  match buildRegionToCells rm with
  | .error e => .error e
  | .ok rtc =>
    match layoutValidate rtc with
    | .error e => .error e
    | .ok _ => .ok ⟨rm, rtc⟩

/-! ### Spec-side notions for C6 -/

/-- The cells of region `r`, in ascending order (what `buildRegionToCells`
computes). -/
def regionCellsSpec (rm : Fin 81 → ℤ) (r : Fin 9) : List ℕ :=
  ((List.finRange 81).filter (fun p => rm p = (r.val : ℤ))).map Fin.val

/-- Spec-side orthogonal adjacency of two cell positions. -/
def orthAdj (a b : ℕ) : Prop :=
  (a / 9 = b / 9 ∧ (a % 9 + 1 = b % 9 ∨ b % 9 + 1 = a % 9)) ∨
  (a % 9 = b % 9 ∧ (a / 9 + 1 = b / 9 ∨ b / 9 + 1 = a / 9))

instance (a b : ℕ) : Decidable (orthAdj a b) := by unfold orthAdj; infer_instance

/-- Reachability within the cell set `S` by orthogonal steps from `start`. -/
inductive ReachIn (S : ℕ → Prop) (start : ℕ) : ℕ → Prop where
  | base : ReachIn S start start
  | step (a b : ℕ) : ReachIn S start a → S b → orthAdj a b → ReachIn S start b

/-- Region `r` of `rm` is orthogonally contiguous: every cell of the region
is reachable from the region's first cell through cells of the region. -/
def regionConnected (rm : Fin 81 → ℤ) (r : Fin 9) : Prop :=
  ∀ p : Fin 81, rm p = (r.val : ℤ) →
    ReachIn (fun i => i ∈ regionCellsSpec rm r) ((regionCellsSpec rm r).headD 0) p.val

/-- All 81 region entries lie in 0..8. -/
def entriesOK (rm : Fin 81 → ℤ) : Prop := ∀ p, 0 ≤ rm p ∧ rm p ≤ 8

/-- Every region receives exactly 9 cells. -/
def counts9 (rm : Fin 81 → ℤ) : Prop :=
  ∀ r : Fin 9, (regionCellsSpec rm r).length = 9

/-! ### Neighbor lemmas -/

theorem mem_ite_singleton (b x : ℕ) (c : Prop) [Decidable c] :
    (b ∈ if c then [x] else ([] : List ℕ)) ↔ c ∧ b = x := by
  by_cases h : c <;> simp [h]

theorem mem_nbrs_iff (a b : ℕ) (ha : a < 81) (hb : b < 81) :
    b ∈ nbrs a ↔ orthAdj a b := by
  unfold nbrs orthAdj
  simp only [List.mem_append, mem_ite_singleton]
  omega

theorem nbrs_nodup (a : ℕ) : (nbrs a).Nodup := by
  unfold nbrs
  by_cases h1 : 0 < a / 9 <;> by_cases h2 : a / 9 < 8 <;>
    by_cases h3 : 0 < a % 9 <;> by_cases h4 : a % 9 < 8 <;>
    simp [h1, h2, h3, h4] <;> omega

theorem nbrs_lt (a b : ℕ) (ha : a < 81) (hmem : b ∈ nbrs a) : b < 81 := by
  unfold nbrs at hmem
  simp only [List.mem_append, mem_ite_singleton] at hmem
  omega

/-! ### BFS correctness -/

/-- Invariant-based characterization of the contiguity BFS: run with enough
fuel from a frontier-closed state, it ends with `visited` marking exactly
the cells reachable from `start` and with `count` equal to their number. -/
theorem bfs_main (cells : List ℕ)
    (hlt : ∀ c ∈ cells, c < 81) (start : ℕ) :
    ∀ (fuel : ℕ) (queue : List ℕ) (visited : ℕ → Bool) (count : ℕ),
      queue.Nodup →
      (∀ q ∈ queue, visited q = true) →
      visited start = true →
      (∀ i, visited i = true → i ∈ cells) →
      (∀ i, visited i = true → ReachIn (fun j => j ∈ cells) start i) →
      (∀ a, visited a = true → a ∉ queue →
        ∀ b, b ∈ cells → b ∈ nbrs a → visited b = true) →
      count = (cells.toFinset.filter (fun i => visited i = true)).card →
      queue.length + (cells.toFinset.filter (fun i => visited i = false)).card ≤ fuel →
      (∀ i, ((bfsLoop (fun i => decide (i ∈ cells)) fuel queue visited count).1 i = true)
          ↔ ReachIn (fun j => j ∈ cells) start i) ∧
      (bfsLoop (fun i => decide (i ∈ cells)) fuel queue visited count).2 =
        (cells.toFinset.filter (fun i =>
          (bfsLoop (fun i => decide (i ∈ cells)) fuel queue visited count).1 i = true)).card := by
  intro fuel
  induction fuel with
  | zero =>
    intro queue visited count hqnd hqv hvs hvc hvr hfront hcount hfuel
    cases queue with
    | nil =>
      refine ⟨?_, hcount⟩
      intro i
      constructor
      · exact hvr i
      · intro hreach
        induction hreach with
        | base => exact hvs
        | step a b hra hbc hadj ihr =>
          have hva : visited a = true := ihr
          have halt : a < 81 := hlt a (hvc a hva)
          have hblt : b < 81 := hlt b hbc
          exact hfront a hva (List.not_mem_nil a) b hbc
            ((mem_nbrs_iff a b halt hblt).mpr hadj)
    | cons p rest =>
      exfalso
      simp only [List.length_cons] at hfuel
      omega
  | succ fuel ih =>
    intro queue visited count hqnd hqv hvs hvc hvr hfront hcount hfuel
    cases queue with
    | nil =>
      refine ⟨?_, hcount⟩
      intro i
      constructor
      · exact hvr i
      · intro hreach
        induction hreach with
        | base => exact hvs
        | step a b hra hbc hadj ihr =>
          have hva : visited a = true := ihr
          have halt : a < 81 := hlt a (hvc a hva)
          have hblt : b < 81 := hlt b hbc
          exact hfront a hva (List.not_mem_nil a) b hbc
            ((mem_nbrs_iff a b halt hblt).mpr hadj)
    | cons p rest =>
      have hp : visited p = true := hqv p (List.mem_cons_self p rest)
      have hpc : p ∈ cells := hvc p hp
      have hplt : p < 81 := hlt p hpc
      set fresh := (nbrs p).filter
        (fun nb => decide (nb ∈ cells) && !visited nb) with hfreshdef
      have hfreshmem : ∀ x ∈ fresh, x ∈ nbrs p ∧ x ∈ cells ∧ visited x = false := by
        intro x hx
        rw [hfreshdef, List.mem_filter] at hx
        obtain ⟨hx1, hx2⟩ := hx
        rw [Bool.and_eq_true_iff] at hx2
        refine ⟨hx1, by simpa using hx2.1, by simpa using hx2.2⟩
      have hfreshnd : fresh.Nodup := (nbrs_nodup p).filter _
      have hrestnd : rest.Nodup := (List.nodup_cons.mp hqnd).2
      have hpnrest : p ∉ rest := (List.nodup_cons.mp hqnd).1
      have hdisj : ∀ a ∈ rest, a ∉ fresh := by
        intro a ha hafresh
        have := (hfreshmem a hafresh).2.2
        rw [hqv a (List.mem_cons_of_mem p ha)] at this
        cases this
      -- the new visited function
      set v2 : ℕ → Bool := fun i => visited i || decide (i ∈ fresh) with hv2def
      have hv2 : ∀ i, v2 i = true ↔ (visited i = true ∨ i ∈ fresh) := by
        intro i
        rw [hv2def]
        simp
      -- finset bookkeeping
      have hfreshsub : fresh.toFinset ⊆
          cells.toFinset.filter (fun i => visited i = false) := by
        intro x hx
        rw [List.mem_toFinset] at hx
        rw [Finset.mem_filter, List.mem_toFinset]
        exact ⟨(hfreshmem x hx).2.1, (hfreshmem x hx).2.2⟩
      have hfreshcard : fresh.toFinset.card = fresh.length :=
        List.toFinset_card_of_nodup hfreshnd
      have hsetT : cells.toFinset.filter (fun i => v2 i = true) =
          cells.toFinset.filter (fun i => visited i = true) ∪ fresh.toFinset := by
        ext x
        rw [Finset.mem_union, Finset.mem_filter, Finset.mem_filter, List.mem_toFinset,
          List.mem_toFinset, hv2 x]
        constructor
        · rintro ⟨hxc, hxv | hxf⟩
          · exact Or.inl ⟨hxc, hxv⟩
          · exact Or.inr hxf
        · rintro (⟨hxc, hxv⟩ | hxf)
          · exact ⟨hxc, Or.inl hxv⟩
          · exact ⟨(hfreshmem x hxf).2.1, Or.inr hxf⟩
      have hdisjT : Disjoint (cells.toFinset.filter (fun i => visited i = true))
          fresh.toFinset := by
        rw [Finset.disjoint_left]
        intro x hx hxf
        rw [Finset.mem_filter] at hx
        rw [List.mem_toFinset] at hxf
        have := (hfreshmem x hxf).2.2
        rw [hx.2] at this
        cases this
      have hsetF : cells.toFinset.filter (fun i => v2 i = false) =
          cells.toFinset.filter (fun i => visited i = false) \ fresh.toFinset := by
        ext x
        rw [Finset.mem_sdiff, Finset.mem_filter, Finset.mem_filter, List.mem_toFinset,
          List.mem_toFinset]
        have hx2 : v2 x = false ↔ ¬(visited x = true ∨ x ∈ fresh) := by
          rw [← hv2 x]
          simp
        rw [hx2]
        constructor
        · rintro ⟨hxc, hxn⟩
          push_neg at hxn
          exact ⟨⟨hxc, by simpa using hxn.1⟩, hxn.2⟩
        · rintro ⟨⟨hxc, hxv⟩, hxf⟩
          refine ⟨hxc, ?_⟩
          push_neg
          exact ⟨by simp [hxv], hxf⟩
      -- the recursive call
      have hstep : bfsLoop (fun i => decide (i ∈ cells)) (fuel + 1) (p :: rest)
          visited count =
          bfsLoop (fun i => decide (i ∈ cells)) fuel (rest ++ fresh) v2
            (count + fresh.length) := rfl
      rw [hstep]
      apply ih (rest ++ fresh) v2 (count + fresh.length)
      · rw [List.nodup_append]
        exact ⟨hrestnd, hfreshnd, fun a ha => hdisj a ha⟩
      · intro q hq
        rcases List.mem_append.mp hq with hq | hq
        · rw [hv2 q]; exact Or.inl (hqv q (List.mem_cons_of_mem p hq))
        · rw [hv2 q]; exact Or.inr hq
      · rw [hv2 start]; exact Or.inl hvs
      · intro i hi
        rcases (hv2 i).mp hi with hi | hi
        · exact hvc i hi
        · exact (hfreshmem i hi).2.1
      · intro i hi
        rcases (hv2 i).mp hi with hi | hi
        · exact hvr i hi
        · have hm := hfreshmem i hi
          have hilt : i < 81 := hlt i hm.2.1
          exact ReachIn.step p i (hvr p hp) hm.2.1
            ((mem_nbrs_iff p i hplt hilt).mp hm.1)
      · intro a hva2 hanq b hbc hbn
        by_cases hafresh : a ∈ fresh
        · exact absurd (List.mem_append_right rest hafresh) hanq
        have hva : visited a = true := by
          rcases (hv2 a).mp hva2 with h | h
          · exact h
          · exact absurd h hafresh
        by_cases hap : a = p
        · subst hap
          by_cases hbv : visited b = true
          · rw [hv2 b]; exact Or.inl hbv
          · rw [hv2 b]
            refine Or.inr ?_
            rw [hfreshdef, List.mem_filter]
            refine ⟨hbn, ?_⟩
            rw [Bool.and_eq_true_iff]
            constructor
            · simpa using hbc
            · simpa using Bool.not_eq_true (visited b) ▸ hbv
        · have hanrest : a ∉ rest := fun h => hanq (List.mem_append_left fresh h)
          have hanpq : a ∉ p :: rest := by
            intro h
            rcases List.mem_cons.mp h with h | h
            · exact hap h
            · exact hanrest h
          rw [hv2 b]
          exact Or.inl (hfront a hva hanpq b hbc hbn)
      · rw [hsetT, Finset.card_union_of_disjoint hdisjT, hfreshcard, hcount]
      · rw [hsetF, Finset.card_sdiff hfreshsub, hfreshcard]
        have hle : fresh.length ≤
            (cells.toFinset.filter (fun i => visited i = false)).card := by
          rw [← hfreshcard]
          exact Finset.card_le_card hfreshsub
        rw [List.length_append]
        simp only [List.length_cons] at hfuel
        omega

theorem buildFold_error (rm : Fin 81 → ℤ) (e : LErr) :
    ∀ l : List (Fin 81), l.foldl (buildStep rm) (.error e) = .error e := by
  intro l
  induction l with
  | nil => rfl
  | cons p rest ih => rw [List.foldl_cons]; exact ih

/-- Characterization of the `buildRegionToCells` scan over any suffix. -/
theorem buildFold (rm : Fin 81 → ℤ) :
    ∀ (l done : List (Fin 81)) (rtc : Fin 9 → List ℕ) (counts : Fin 9 → ℕ),
      (∀ r : Fin 9, rtc r = (done.filter (fun p => rm p = (r.val : ℤ))).map Fin.val) →
      (∀ r : Fin 9, counts r = (done.filter (fun p => rm p = (r.val : ℤ))).length) →
      match l.foldl (buildStep rm) (.ok (rtc, counts)) with
      | .ok (rtc2, counts2) =>
          (∀ p ∈ l, 0 ≤ rm p ∧ rm p ≤ 8) ∧
          (∀ r : Fin 9, rtc2 r =
            (((done ++ l).filter (fun p => rm p = (r.val : ℤ))).map Fin.val)) ∧
          (∀ r : Fin 9, counts2 r =
            ((done ++ l).filter (fun p => rm p = (r.val : ℤ))).length)
      | .error (.outOfRange i x) =>
          ∃ p : Fin 81, p.val = i ∧ rm p = x ∧ ¬(0 ≤ x ∧ x ≤ 8)
      | .error (.tooMany r2) =>
          ∃ hr : r2 < 9,
            10 ≤ ((done ++ l).filter (fun p => rm p = ((r2 : ℕ) : ℤ))).length
      | .error _ => False := by
  intro l
  induction l with
  | nil =>
    intro done rtc counts hrtc hcounts
    simp only [List.foldl_nil, List.append_nil]
    exact ⟨fun p hp => absurd hp (List.not_mem_nil p), hrtc, hcounts⟩
  | cons p rest ih =>
    intro done rtc counts hrtc hcounts
    rw [List.foldl_cons]
    have hstep0 : buildStep rm (.ok (rtc, counts)) p =
        (if 0 ≤ rm p ∧ rm p ≤ 8 then
          (if counts (regIdx (rm p)) ≥ 9 then .error (.tooMany (regIdx (rm p)).val)
           else .ok (Function.update rtc (regIdx (rm p))
               (rtc (regIdx (rm p)) ++ [p.val]),
             Function.update counts (regIdx (rm p)) (counts (regIdx (rm p)) + 1)))
         else .error (.outOfRange p.val (rm p))) := rfl
    by_cases hr : 0 ≤ rm p ∧ rm p ≤ 8
    · have hri : ((regIdx (rm p)).val : ℤ) = rm p := by
        unfold regIdx
        simp
        omega
      set ri : Fin 9 := regIdx (rm p) with hridef
      by_cases hfull : counts ri ≥ 9
      · have hstep : buildStep rm (.ok (rtc, counts)) p = .error (.tooMany ri.val) := by
          rw [hstep0, if_pos hr, if_pos hfull]
        rw [hstep, buildFold_error]
        refine ⟨ri.isLt, ?_⟩
        have hdone : 9 ≤ (done.filter (fun q => rm q = ((ri.val : ℕ) : ℤ))).length := by
          rw [← hcounts ri]; exact hfull
        have hsplit : ((done ++ p :: rest).filter
            (fun q => rm q = ((ri.val : ℕ) : ℤ))).length =
            (done.filter (fun q => rm q = ((ri.val : ℕ) : ℤ))).length +
            ((p :: rest).filter (fun q => rm q = ((ri.val : ℕ) : ℤ))).length := by
          rw [List.filter_append, List.length_append]
        have hpmem : 0 < ((p :: rest).filter
            (fun q => rm q = ((ri.val : ℕ) : ℤ))).length := by
          have hmem : p ∈ (p :: rest).filter (fun q => rm q = ((ri.val : ℕ) : ℤ)) := by
            rw [List.mem_filter]
            exact ⟨List.mem_cons_self p rest, by simp [hri]⟩
          exact List.length_pos.mpr (List.ne_nil_of_mem hmem)
        omega
      · have hstep : buildStep rm (.ok (rtc, counts)) p =
            .ok (Function.update rtc ri (rtc ri ++ [p.val]),
              Function.update counts ri (counts ri + 1)) := by
          rw [hstep0, if_pos hr, if_neg hfull]
        rw [hstep]
        have hfilterp : ∀ r : Fin 9,
            ((done ++ [p]).filter (fun q => rm q = (r.val : ℤ))) =
            if r = ri then (done.filter (fun q => rm q = (r.val : ℤ))) ++ [p]
            else done.filter (fun q => rm q = (r.val : ℤ)) := by
          intro r
          rw [List.filter_append]
          by_cases hreq : r = ri
          · subst hreq
            rw [if_pos rfl]
            congr 1
            simp [hri]
          · rw [if_neg hreq]
            have hne : ¬(rm p = (r.val : ℤ)) := by
              rw [← hri]
              intro hcon
              have hval : r.val = ri.val := by exact_mod_cast hcon.symm
              exact hreq (Fin.ext hval)
            simp [hne]
        have hrtc' : ∀ r : Fin 9, Function.update rtc ri (rtc ri ++ [p.val]) r =
            (((done ++ [p]).filter (fun q => rm q = (r.val : ℤ))).map Fin.val) := by
          intro r
          rw [hfilterp r]
          by_cases hreq : r = ri
          · subst hreq
            rw [Function.update_same, if_pos rfl, List.map_append, hrtc ri]
            rfl
          · rw [Function.update_noteq hreq, if_neg hreq, hrtc r]
        have hcounts' : ∀ r : Fin 9, Function.update counts ri (counts ri + 1) r =
            ((done ++ [p]).filter (fun q => rm q = (r.val : ℤ))).length := by
          intro r
          rw [hfilterp r]
          by_cases hreq : r = ri
          · subst hreq
            rw [Function.update_same, if_pos rfl, List.length_append, hcounts ri]
            rfl
          · rw [Function.update_noteq hreq, if_neg hreq, hcounts r]
        have hres := ih (done ++ [p]) _ _ hrtc' hcounts'
        have hassoc : (done ++ [p]) ++ rest = done ++ p :: rest := by
          rw [List.append_assoc]
          rfl
        rw [hassoc] at hres
        revert hres
        cases rest.foldl (buildStep rm)
          (.ok (Function.update rtc ri (rtc ri ++ [p.val]),
            Function.update counts ri (counts ri + 1))) with
        | error e =>
          intro hres
          cases e with
          | outOfRange i x => exact hres
          | tooMany r2 => exact hres
          | wrongCount r2 cnt => exact hres
          | notContiguous a b c => exact hres
        | ok st =>
          intro hres
          refine ⟨?_, hres.2.1, hres.2.2⟩
          intro q hq
          rcases List.mem_cons.mp hq with rfl | hq'
          · exact hr
          · exact hres.1 q hq'
    · have hstep : buildStep rm (.ok (rtc, counts)) p =
          .error (.outOfRange p.val (rm p)) := by
        rw [hstep0, if_neg hr]
      rw [hstep, buildFold_error]
      exact ⟨p, rfl, rfl, hr⟩

theorem seqFold_error (f : Fin 9 → Except LErr Unit) (e : LErr) :
    ∀ l : List (Fin 9), l.foldl (seqStep f) (.error e) = .error e := by
  intro l
  induction l with
  | nil => rfl
  | cons r rest ih => rw [List.foldl_cons]; exact ih

theorem seqFold_ok_iff (f : Fin 9 → Except LErr Unit) :
    ∀ l : List (Fin 9),
      (l.foldl (seqStep f) (.ok ()) = .ok ()) ↔ ∀ r ∈ l, f r = .ok () := by
  intro l
  induction l with
  | nil => simp
  | cons r rest ih =>
    rw [List.foldl_cons]
    rcases hf : f r with e | u
    · have hstep : seqStep f (.ok ()) r = .error e := by
        unfold seqStep; rw [hf]
      rw [hstep, seqFold_error]
      constructor
      · intro h; cases h
      · intro h
        rw [h r (List.mem_cons_self r rest)] at hf
        cases hf
    · cases u
      have hstep : seqStep f (.ok ()) r = .ok () := by
        unfold seqStep; rw [hf]
      rw [hstep, ih]
      constructor
      · intro h q hq
        rcases List.mem_cons.mp hq with rfl | hq'
        · exact hf
        · exact h q hq'
      · intro h q hq
        exact h q (List.mem_cons_of_mem r hq)

theorem seqFold_err (f : Fin 9 → Except LErr Unit) :
    ∀ (l : List (Fin 9)) (e : LErr), l.foldl (seqStep f) (.ok ()) = .error e →
      ∃ pre r post, l = pre ++ r :: post ∧ (∀ r' ∈ pre, f r' = .ok ()) ∧
        f r = .error e := by
  intro l
  induction l with
  | nil => intro e h; cases h
  | cons r rest ih =>
    intro e h
    rw [List.foldl_cons] at h
    rcases hf : f r with e2 | u
    · have hstep : seqStep f (.ok ()) r = .error e2 := by
        unfold seqStep; rw [hf]
      rw [hstep, seqFold_error] at h
      cases h
      exact ⟨[], r, rest, rfl, fun r' hr' => absurd hr' (List.not_mem_nil r'), hf⟩
    · cases u
      have hstep : seqStep f (.ok ()) r = .ok () := by
        unfold seqStep; rw [hf]
      rw [hstep] at h
      obtain ⟨pre, r2, post, hsplit, hpre, hr2⟩ := ih e h
      refine ⟨r :: pre, r2, post, by rw [hsplit]; rfl, ?_, hr2⟩
      intro r' hr'
      rcases List.mem_cons.mp hr' with rfl | hr''
      · exact hf
      · exact hpre r' hr''

theorem mem_regionCellsSpec (rm : Fin 81 → ℤ) (r : Fin 9) (i : ℕ) :
    i ∈ regionCellsSpec rm r ↔ ∃ p : Fin 81, p.val = i ∧ rm p = (r.val : ℤ) := by
  unfold regionCellsSpec
  simp only [List.mem_map, List.mem_filter, List.mem_finRange, true_and,
    decide_eq_true_eq]
  constructor
  · rintro ⟨p, hp, rfl⟩
    exact ⟨p, rfl, hp⟩
  · rintro ⟨p, rfl, hp⟩
    exact ⟨p, hp, rfl⟩

theorem regionCellsSpec_nodup (rm : Fin 81 → ℤ) (r : Fin 9) :
    (regionCellsSpec rm r).Nodup :=
  ((List.nodup_finRange 81).filter _).map Fin.val_injective

theorem regionCellsSpec_lt (rm : Fin 81 → ℤ) (r : Fin 9) :
    ∀ c ∈ regionCellsSpec rm r, c < 81 := by
  intro c hc
  obtain ⟨p, rfl, -⟩ := (mem_regionCellsSpec rm r c).mp hc
  exact p.isLt

theorem regionConnected_iff (rm : Fin 81 → ℤ) (r : Fin 9) :
    regionConnected rm r ↔
      ∀ c ∈ regionCellsSpec rm r,
        ReachIn (fun j => j ∈ regionCellsSpec rm r)
          ((regionCellsSpec rm r).headD 0) c := by
  constructor
  · intro h c hc
    obtain ⟨p, rfl, hp⟩ := (mem_regionCellsSpec rm r c).mp hc
    exact h p hp
  · intro h p hp
    exact h p.val ((mem_regionCellsSpec rm r p.val).mpr ⟨p, rfl, hp⟩)

/-- Correctness of `validateContiguous` over a 9-cell region list: it
succeeds exactly when every region cell is BFS-reachable from the first
cell, and its failure reports the region, the reached count and the start
cell. -/
theorem validateContiguous_spec (rtc : Fin 9 → List ℕ) (region : Fin 9)
    (hnd : (rtc region).Nodup) (hlt : ∀ c ∈ rtc region, c < 81)
    (hlen : (rtc region).length = 9) :
    (validateContiguous rtc region = .ok () ↔
      ∀ c ∈ rtc region,
        ReachIn (fun j => j ∈ rtc region) ((rtc region).headD 0) c) ∧
    (∀ e, validateContiguous rtc region = .error e →
      (¬ ∀ c ∈ rtc region,
        ReachIn (fun j => j ∈ rtc region) ((rtc region).headD 0) c) ∧
      ∃ v, e = .notContiguous region.val v ((rtc region).headD 0)) := by
  set cells := rtc region with hcells
  set start := cells.headD 0 with hstart
  have hstartmem : start ∈ cells := by
    rcases hc : cells with _ | ⟨c, tl⟩
    · rw [hc] at hlen; simp at hlen
    · rw [hstart, hc]
      simp
  have hcard : cells.toFinset.card = 9 := by
    rw [List.toFinset_card_of_nodup hnd, hlen]
  have hcount0 : 1 = (cells.toFinset.filter
      (fun i => (fun i => decide (i = start)) i = true)).card := by
    have hfe : cells.toFinset.filter (fun i => (fun i => decide (i = start)) i = true) =
        {start} := by
      ext x
      simp only [Finset.mem_filter, List.mem_toFinset, decide_eq_true_eq,
        Finset.mem_singleton]
      constructor
      · rintro ⟨-, rfl⟩; rfl
      · rintro rfl; exact ⟨hstartmem, rfl⟩
    rw [hfe, Finset.card_singleton]
  have hfuel : ([start] : List ℕ).length + (cells.toFinset.filter
      (fun i => (fun i => decide (i = start)) i = false)).card ≤ 81 := by
    have hle : (Finset.filter (fun i => decide (i = start) = false)
        cells.toFinset).card ≤ cells.toFinset.card :=
      Finset.card_le_card (Finset.filter_subset _ _)
    simp only [List.length_singleton]
    omega
  obtain ⟨hchar, hcount⟩ := bfs_main cells hlt start 81 [start]
    (fun i => decide (i = start)) 1
    (List.nodup_singleton start)
    (fun q hq => by rw [List.mem_singleton.mp hq]; simp)
    (by simp)
    (fun i hi => by rw [decide_eq_true_eq] at hi; rw [hi]; exact hstartmem)
    (fun i hi => by rw [decide_eq_true_eq] at hi; rw [hi]; exact ReachIn.base)
    (fun a hva hanq b _ _ => by
      rw [decide_eq_true_eq] at hva
      exact absurd (by rw [hva]; exact List.mem_singleton_self start) hanq)
    hcount0 hfuel
  set res := bfsLoop (fun i => decide (i ∈ cells)) 81 [start]
    (fun i => decide (i = start)) 1 with hres
  have hreached : res.2 = 9 ↔
      ∀ c ∈ cells, ReachIn (fun j => j ∈ cells) start c := by
    constructor
    · intro h9 c hc
      have hsub : cells.toFinset.filter (fun i => res.1 i = true) ⊆ cells.toFinset :=
        Finset.filter_subset _ _
      have heq : cells.toFinset.filter (fun i => res.1 i = true) = cells.toFinset := by
        apply Finset.eq_of_subset_of_card_le hsub
        rw [← hcount, h9, hcard]
      have hcmem : c ∈ cells.toFinset.filter (fun i => res.1 i = true) := by
        rw [heq, List.mem_toFinset]
        exact hc
      rw [Finset.mem_filter] at hcmem
      exact (hchar c).mp hcmem.2
    · intro hall
      have heq : cells.toFinset.filter (fun i => res.1 i = true) = cells.toFinset := by
        ext x
        rw [Finset.mem_filter, List.mem_toFinset]
        constructor
        · rintro ⟨hx, -⟩; exact hx
        · intro hx
          exact ⟨hx, (hchar x).mpr (hall x hx)⟩
      rw [hcount, heq, hcard]
  have hvc : validateContiguous rtc region =
      if res.2 ≠ 9 then .error (.notContiguous region.val res.2 start) else .ok () := rfl
  constructor
  · rw [hvc]
    by_cases h9 : res.2 = 9
    · rw [if_neg (not_not_intro h9)]
      simp only [true_iff]
      exact hreached.mp h9
    · rw [if_pos h9]
      constructor
      · intro h; cases h
      · intro hall
        exact absurd (hreached.mpr hall) h9
  · intro e herr
    rw [hvc] at herr
    by_cases h9 : res.2 = 9
    · rw [if_neg (not_not_intro h9)] at herr
      cases herr
    · rw [if_pos h9] at herr
      cases herr
      exact ⟨fun hall => h9 (hreached.mpr hall), res.2, rfl⟩

theorem regionCellsSpec_length (rm : Fin 81 → ℤ) (r : Fin 9) :
    (regionCellsSpec rm r).length =
      ((List.finRange 81).filter (fun p => rm p = (r.val : ℤ))).length := by
  unfold regionCellsSpec
  rw [List.length_map]

theorem buildRegionToCells_ok (rm : Fin 81 → ℤ) (rtc : Fin 9 → List ℕ)
    (h : buildRegionToCells rm = .ok rtc) :
    entriesOK rm ∧ counts9 rm ∧ ∀ r, rtc r = regionCellsSpec rm r := by
  unfold buildRegionToCells at h
  have hfold := buildFold rm (List.finRange 81) [] (fun _ => []) (fun _ => 0)
    (fun r => by simp) (fun r => by simp)
  simp only [List.nil_append] at hfold
  cases hfr : (List.finRange 81).foldl (buildStep rm)
      (.ok (fun _ => [], fun _ => 0)) with
  | error e =>
    rw [hfr] at h
    have h2 : (Except.error e : Except LErr (Fin 9 → List ℕ)) = Except.ok rtc := h
    cases h2
  | ok st =>
    obtain ⟨rtc1, counts1⟩ := st
    rw [hfr] at h hfold
    have hfold2 : (∀ p ∈ List.finRange 81, 0 ≤ rm p ∧ rm p ≤ 8) ∧
        (∀ r : Fin 9, rtc1 r =
          (((List.finRange 81).filter (fun p => rm p = (r.val : ℤ))).map Fin.val)) ∧
        (∀ r : Fin 9, counts1 r =
          ((List.finRange 81).filter (fun p => rm p = (r.val : ℤ))).length) := hfold
    obtain ⟨hrange, hrtc1, hcounts1⟩ := hfold2
    have h2 : (match (List.finRange 9).foldl
        (seqStep (fun r => if counts1 r ≠ 9
          then Except.error (LErr.wrongCount r.val (counts1 r)) else Except.ok ()))
        (Except.ok ()) with
      | .error e => (Except.error e : Except LErr (Fin 9 → List ℕ))
      | .ok _ => Except.ok rtc1) = Except.ok rtc := h
    cases hcc : (List.finRange 9).foldl
        (seqStep (fun r => if counts1 r ≠ 9
          then Except.error (LErr.wrongCount r.val (counts1 r)) else Except.ok ()))
        (Except.ok ()) with
    | error e =>
      rw [hcc] at h2
      have h3 : (Except.error e : Except LErr (Fin 9 → List ℕ)) = Except.ok rtc := h2
      cases h3
    | ok u =>
      rw [hcc] at h2
      have h3 : Except.ok rtc1 = Except.ok rtc := h2
      injection h3 with h4
      subst h4
      have hcounts : ∀ r : Fin 9, counts1 r = 9 := by
        intro r
        have hok := (seqFold_ok_iff _ (List.finRange 9)).mp hcc r (List.mem_finRange r)
        by_cases h9 : counts1 r ≠ 9
        · rw [if_pos h9] at hok; cases hok
        · omega
      refine ⟨fun p => hrange p (List.mem_finRange p), ?_, ?_⟩
      · intro r
        rw [regionCellsSpec_length, ← hcounts1 r]
        exact hcounts r
      · intro r
        rw [hrtc1 r]
        rfl

theorem buildRegionToCells_complete (rm : Fin 81 → ℤ)
    (hR : entriesOK rm) (hC : counts9 rm) :
    ∃ rtc, buildRegionToCells rm = .ok rtc ∧ ∀ r, rtc r = regionCellsSpec rm r := by
  have hfold := buildFold rm (List.finRange 81) [] (fun _ => []) (fun _ => 0)
    (fun r => by simp) (fun r => by simp)
  simp only [List.nil_append] at hfold
  cases hfr : (List.finRange 81).foldl (buildStep rm)
      (.ok (fun _ => [], fun _ => 0)) with
  | error e =>
    exfalso
    rw [hfr] at hfold
    cases e with
    | outOfRange i x =>
      have hfold2 : ∃ p : Fin 81, p.val = i ∧ rm p = x ∧ ¬(0 ≤ x ∧ x ≤ 8) := hfold
      obtain ⟨p, -, hrm, hbad⟩ := hfold2
      exact hbad (hrm ▸ hR p)
    | tooMany r2 =>
      have hfold2 : ∃ hr : r2 < 9,
          10 ≤ ((List.finRange 81).filter
            (fun p => rm p = ((r2 : ℕ) : ℤ))).length := hfold
      obtain ⟨hr2, hbig⟩ := hfold2
      have h9 : ((List.finRange 81).filter
          (fun p => rm p = ((r2 : ℕ) : ℤ))).length = 9 := by
        have h9x := hC ⟨r2, hr2⟩
        rw [regionCellsSpec_length] at h9x
        exact h9x
      omega
    | wrongCount r2 cnt => exact hfold
    | notContiguous a b c => exact hfold
  | ok st =>
    obtain ⟨rtc1, counts1⟩ := st
    rw [hfr] at hfold
    have hfold2 : (∀ p ∈ List.finRange 81, 0 ≤ rm p ∧ rm p ≤ 8) ∧
        (∀ r : Fin 9, rtc1 r =
          (((List.finRange 81).filter (fun p => rm p = (r.val : ℤ))).map Fin.val)) ∧
        (∀ r : Fin 9, counts1 r =
          ((List.finRange 81).filter (fun p => rm p = (r.val : ℤ))).length) := hfold
    obtain ⟨-, hrtc1, hcounts1⟩ := hfold2
    have hcc : (List.finRange 9).foldl
        (seqStep (fun r => if counts1 r ≠ 9
          then Except.error (LErr.wrongCount r.val (counts1 r)) else Except.ok ()))
        (Except.ok ()) = Except.ok () := by
      rw [seqFold_ok_iff]
      intro r _
      have h9 : ¬ counts1 r ≠ 9 := by
        rw [hcounts1 r, ← regionCellsSpec_length]
        exact not_not_intro (hC r)
      rw [if_neg h9]
    refine ⟨rtc1, ?_, fun r => by rw [hrtc1 r]; rfl⟩
    unfold buildRegionToCells
    rw [hfr]
    show (match (List.finRange 9).foldl
        (seqStep (fun r => if counts1 r ≠ 9
          then Except.error (LErr.wrongCount r.val (counts1 r)) else Except.ok ()))
        (Except.ok ()) with
      | .error e => (Except.error e : Except LErr (Fin 9 → List ℕ))
      | .ok _ => Except.ok rtc1) = Except.ok rtc1
    rw [hcc]

theorem buildRegionToCells_err (rm : Fin 81 → ℤ) (e : LErr)
    (h : buildRegionToCells rm = .error e) :
    match e with
    | .outOfRange i x => ∃ p : Fin 81, p.val = i ∧ rm p = x ∧ ¬(0 ≤ x ∧ x ≤ 8)
    | .tooMany r2 => ∃ hr : r2 < 9, 10 ≤ (regionCellsSpec rm ⟨r2, hr⟩).length
    | .wrongCount r2 cnt =>
        ∃ hr : r2 < 9, cnt = (regionCellsSpec rm ⟨r2, hr⟩).length ∧ cnt ≠ 9
    | .notContiguous _ _ _ => False := by
  unfold buildRegionToCells at h
  have hfold := buildFold rm (List.finRange 81) [] (fun _ => []) (fun _ => 0)
    (fun r => by simp) (fun r => by simp)
  simp only [List.nil_append] at hfold
  cases hfr : (List.finRange 81).foldl (buildStep rm)
      (.ok (fun _ => [], fun _ => 0)) with
  | error e2 =>
    rw [hfr] at h hfold
    have h2 : (Except.error e2 : Except LErr (Fin 9 → List ℕ)) = Except.error e := h
    injection h2 with h3
    subst h3
    cases e2 with
    | outOfRange i x => exact hfold
    | tooMany r2 =>
      have hfold2 : ∃ hr : r2 < 9,
          10 ≤ ((List.finRange 81).filter
            (fun p => rm p = ((r2 : ℕ) : ℤ))).length := hfold
      obtain ⟨hr2, hbig⟩ := hfold2
      refine ⟨hr2, ?_⟩
      rw [regionCellsSpec_length]
      exact hbig
    | wrongCount r2 cnt =>
      have hfalse : False := hfold
      exact hfalse.elim
    | notContiguous a b c =>
      have hfalse : False := hfold
      exact hfalse.elim
  | ok st =>
    obtain ⟨rtc1, counts1⟩ := st
    rw [hfr] at h hfold
    have hfold2 : (∀ p ∈ List.finRange 81, 0 ≤ rm p ∧ rm p ≤ 8) ∧
        (∀ r : Fin 9, rtc1 r =
          (((List.finRange 81).filter (fun p => rm p = (r.val : ℤ))).map Fin.val)) ∧
        (∀ r : Fin 9, counts1 r =
          ((List.finRange 81).filter (fun p => rm p = (r.val : ℤ))).length) := hfold
    obtain ⟨-, -, hcounts1⟩ := hfold2
    have h2 : (match (List.finRange 9).foldl
        (seqStep (fun r => if counts1 r ≠ 9
          then Except.error (LErr.wrongCount r.val (counts1 r)) else Except.ok ()))
        (Except.ok ()) with
      | .error e3 => (Except.error e3 : Except LErr (Fin 9 → List ℕ))
      | .ok _ => Except.ok rtc1) = Except.error e := h
    cases hcc : (List.finRange 9).foldl
        (seqStep (fun r => if counts1 r ≠ 9
          then Except.error (LErr.wrongCount r.val (counts1 r)) else Except.ok ()))
        (Except.ok ()) with
    | ok u =>
      rw [hcc] at h2
      have h3 : Except.ok rtc1 = Except.error e := h2
      cases h3
    | error e2 =>
      rw [hcc] at h2
      have h3 : (Except.error e2 : Except LErr (Fin 9 → List ℕ)) = Except.error e := h2
      injection h3 with h4
      subst h4
      obtain ⟨pre, r, post, -, -, hrerr⟩ := seqFold_err _ (List.finRange 9) e2 hcc
      by_cases h9 : counts1 r ≠ 9
      · rw [if_pos h9] at hrerr
        injection hrerr with h5
        subst h5
        refine ⟨r.isLt, ?_, h9⟩
        rw [regionCellsSpec_length]
        exact hcounts1 r
      · rw [if_neg h9] at hrerr
        cases hrerr

/-- The region map of scenario S4: standard 3x3 boxes with cells 72,73,74
moved into region 0 and cells 18,19,20 moved into region 6, so that region 0
becomes the non-contiguous set 0,1,2,9,10,11,72,73,74. -/
def s4Map : Fin 81 → ℤ := fun p =>
  if p.val = 18 ∨ p.val = 19 ∨ p.val = 20 then 6
  else if p.val = 72 ∨ p.val = 73 ∨ p.val = 74 then 0
  else ((standardRegion p).val : ℤ)

/-- C6: `NewLayout(regionMap)` succeeds exactly when every entry is in 0..8,
each of the 9 regions receives exactly 9 cells, and each region is
orthogonally contiguous (BFS from the region's first cell reaches all 9).
The error identifies the first violated condition in validation order:
out-of-range entry, over-full region, wrong count, or — with entries and
counts already validated — the least non-contiguous region, as in scenario
S4 where region 0 = {0,1,2,9,10,11,72,73,74} yields an error naming
region 0 (6 of 9 cells reached from cell 0). -/
theorem c6_newLayout_spec :
    (∀ rm : Fin 81 → ℤ,
      ((∃ l, newLayout rm = .ok l) ↔
        (entriesOK rm ∧ counts9 rm ∧ ∀ r : Fin 9, regionConnected rm r)) ∧
      (match newLayout rm with
       | .ok l => l.posToRegion = rm ∧ ∀ r, l.regionToCells r = regionCellsSpec rm r
       | .error (.outOfRange i x) =>
          ∃ p : Fin 81, p.val = i ∧ rm p = x ∧ ¬(0 ≤ x ∧ x ≤ 8)
       | .error (.tooMany r2) =>
          ∃ hr : r2 < 9, 10 ≤ (regionCellsSpec rm ⟨r2, hr⟩).length
       | .error (.wrongCount r2 cnt) =>
          ∃ hr : r2 < 9, cnt = (regionCellsSpec rm ⟨r2, hr⟩).length ∧ cnt ≠ 9
       | .error (.notContiguous r2 v f) =>
          ∃ hr : r2 < 9, entriesOK rm ∧ counts9 rm ∧
            ¬ regionConnected rm ⟨r2, hr⟩ ∧
            (∀ r' : Fin 9, r'.val < r2 → regionConnected rm r') ∧
            f = (regionCellsSpec rm ⟨r2, hr⟩).headD 0)) ∧
    newLayout s4Map = .error (.notContiguous 0 6 0) := by
  constructor
  · intro rm
    constructor
    · constructor
      · rintro ⟨l, hl⟩
        unfold newLayout at hl
        cases hb : buildRegionToCells rm with
        | error e =>
          rw [hb] at hl
          have h2 : (Except.error e : Except LErr LayoutS) = Except.ok l := hl
          cases h2
        | ok rtc =>
          rw [hb] at hl
          obtain ⟨hR, hC, hspec⟩ := buildRegionToCells_ok rm rtc hb
          have hl2 : (match layoutValidate rtc with
            | .error e => (Except.error e : Except LErr LayoutS)
            | .ok _ => Except.ok ⟨rm, rtc⟩) = Except.ok l := hl
          cases hv : layoutValidate rtc with
          | error e =>
            rw [hv] at hl2
            have h2 : (Except.error e : Except LErr LayoutS) = Except.ok l := hl2
            cases h2
          | ok u =>
            refine ⟨hR, hC, ?_⟩
            intro r
            have hv2 : (List.finRange 9).foldl (seqStep (validateContiguous rtc))
                (Except.ok ()) = Except.ok () := hv
            have hvr := (seqFold_ok_iff (validateContiguous rtc)
              (List.finRange 9)).mp hv2 r (List.mem_finRange r)
            have hvspec := validateContiguous_spec rtc r
              (by simp only [hspec r]; exact regionCellsSpec_nodup rm r)
              (by simp only [hspec r]; exact regionCellsSpec_lt rm r)
              (by simp only [hspec r]; exact hC r)
            have hall := hvspec.1.mp hvr
            rw [regionConnected_iff]
            simp only [hspec r] at hall
            exact hall
      · rintro ⟨hR, hC, hconn⟩
        obtain ⟨rtc, hb, hspec⟩ := buildRegionToCells_complete rm hR hC
        have hv : layoutValidate rtc = Except.ok () := by
          unfold layoutValidate
          rw [seqFold_ok_iff]
          intro r _
          have hvspec := validateContiguous_spec rtc r
            (by simp only [hspec r]; exact regionCellsSpec_nodup rm r)
            (by simp only [hspec r]; exact regionCellsSpec_lt rm r)
            (by simp only [hspec r]; exact hC r)
          apply hvspec.1.mpr
          simp only [hspec r]
          exact (regionConnected_iff rm r).mp (hconn r)
        refine ⟨⟨rm, rtc⟩, ?_⟩
        unfold newLayout
        rw [hb]
        show (match layoutValidate rtc with
          | .error e => (Except.error e : Except LErr LayoutS)
          | .ok _ => Except.ok ⟨rm, rtc⟩) = Except.ok ⟨rm, rtc⟩
        rw [hv]
    · cases hn : newLayout rm with
      | ok l =>
        unfold newLayout at hn
        cases hb : buildRegionToCells rm with
        | error e =>
          rw [hb] at hn
          have h2 : (Except.error e : Except LErr LayoutS) = Except.ok l := hn
          cases h2
        | ok rtc =>
          rw [hb] at hn
          have hn2 : (match layoutValidate rtc with
            | .error e => (Except.error e : Except LErr LayoutS)
            | .ok _ => Except.ok ⟨rm, rtc⟩) = Except.ok l := hn
          cases hv : layoutValidate rtc with
          | error e =>
            rw [hv] at hn2
            have h2 : (Except.error e : Except LErr LayoutS) = Except.ok l := hn2
            cases h2
          | ok u =>
            rw [hv] at hn2
            have hn3 : Except.ok (⟨rm, rtc⟩ : LayoutS) = Except.ok l := hn2
            injection hn3 with hn4
            subst hn4
            exact ⟨rfl, (buildRegionToCells_ok rm rtc hb).2.2⟩
      | error e =>
        unfold newLayout at hn
        cases hb : buildRegionToCells rm with
        | error e2 =>
          rw [hb] at hn
          have hn2 : (Except.error e2 : Except LErr LayoutS) = Except.error e := hn
          injection hn2 with hn3
          subst hn3
          have hcharac := buildRegionToCells_err rm e2 hb
          cases e2 with
          | outOfRange i x => exact hcharac
          | tooMany r2 => exact hcharac
          | wrongCount r2 cnt => exact hcharac
          | notContiguous a b c =>
            have hfalse : False := hcharac
            exact hfalse.elim
        | ok rtc =>
          rw [hb] at hn
          obtain ⟨hR, hC, hspec⟩ := buildRegionToCells_ok rm rtc hb
          have hn2 : (match layoutValidate rtc with
            | .error e3 => (Except.error e3 : Except LErr LayoutS)
            | .ok _ => Except.ok ⟨rm, rtc⟩) = Except.error e := hn
          cases hv : layoutValidate rtc with
          | ok u =>
            rw [hv] at hn2
            have h2 : Except.ok (⟨rm, rtc⟩ : LayoutS) = Except.error e := hn2
            cases h2
          | error e2 =>
            rw [hv] at hn2
            have h2 : (Except.error e2 : Except LErr LayoutS) = Except.error e := hn2
            injection h2 with h3
            subst h3
            have hv2 : (List.finRange 9).foldl (seqStep (validateContiguous rtc))
                (Except.ok ()) = Except.error e2 := hv
            obtain ⟨pre, r, post, hdecomp, hpre, hrerr⟩ :=
              seqFold_err (validateContiguous rtc) (List.finRange 9) e2 hv2
            have hvspec := validateContiguous_spec rtc r
              (by simp only [hspec r]; exact regionCellsSpec_nodup rm r)
              (by simp only [hspec r]; exact regionCellsSpec_lt rm r)
              (by simp only [hspec r]; exact hC r)
            obtain ⟨hnreach, v, rfl⟩ := hvspec.2 e2 hrerr
            refine ⟨r.isLt, hR, hC, ?_, ?_, ?_⟩
            · rw [Fin.eta]
              intro hconn
              apply hnreach
              simp only [hspec r]
              exact (regionConnected_iff rm r).mp hconn
            · intro r' hr'
              have hmem : r' ∈ List.finRange 9 := List.mem_finRange r'
              rw [hdecomp] at hmem
              have hpw := List.pairwise_lt_finRange 9
              rw [hdecomp, List.pairwise_append] at hpw
              have hr'pre : r' ∈ pre := by
                rcases List.mem_append.mp hmem with hmem2 | hmem2
                · exact hmem2
                · exfalso
                  rcases List.mem_cons.mp hmem2 with rfl | hmem3
                  · omega
                  · have hlt : r < r' := List.rel_of_pairwise_cons hpw.2.1 hmem3
                    rw [Fin.lt_def] at hlt
                    omega
              have hok := hpre r' hr'pre
              have hvspec2 := validateContiguous_spec rtc r'
                (by simp only [hspec r']; exact regionCellsSpec_nodup rm r')
                (by simp only [hspec r']; exact regionCellsSpec_lt rm r')
                (by simp only [hspec r']; exact hC r')
              have hall := hvspec2.1.mp hok
              rw [regionConnected_iff]
              simp only [hspec r'] at hall
              exact hall
            · rw [Fin.eta, ← hspec r]
  · rfl

/-! ## C1: a failing `Set` on an occupied cell mutates the board -/

/-- The board for the C1 evaluation: `Set(0,1)` then `Set(1,2)` succeed from
the empty board, leaving cells 0 and 1 of row 0 holding 1 and 2. -/
def c1Board : Board :=
  (((Board.new).set standardRegion 0 1).1.set standardRegion 1 2).1

/-- C1: the claim says a failing `Set` leaves the board byte-for-byte
unchanged even when the target cell already held a value.  The code clears
the occupied target cell before the unit-mask checks and does not restore it
when a check fails: on a board with cells 0 and 1 holding 1 and 2,
`Set(0, 2)` returns `IllegalMove` yet empties cell 0, leaving a different
board.  This contradicts the no-mutation-on-failure contract (and the
source's own comment "Modify the board only once we know it's legal"). -/
theorem c1_failing_set_mutates_occupied_cell :
    (c1Board.set standardRegion 0 2).2 = some BErr.illegalMove ∧
    c1Board.cells 0 = 1 ∧
    (c1Board.set standardRegion 0 2).1.cells 0 = 0 ∧
    (c1Board.set standardRegion 0 2).1 ≠ c1Board := by
  refine ⟨by decide, by decide, by decide, fun hEq => ?_⟩
  have h := congrArg (fun bb => bb.cells 0) hEq
  simp only at h
  have h0 : (c1Board.set standardRegion 0 2).1.cells 0 = 0 := by decide
  have h1 : c1Board.cells 0 = 1 := by decide
  omega

/-! ## The solver (solver package)

Shallow embedding of the solver: `New`, `Solve`, `PropagateConstraints`,
naked and hidden singles, `FindMRVCell`, `backtrack`, `fillThreeBoxes` and
`traceDifficulty`, translated from solver.go / difficulty.go.  The board's
layout enters as the region map `R` plus the flag `std` standing for
`Layout().Type == "standard"`.  Environment effects (wall clock readings,
context cancellation polls, elapsed-time readings) are passed explicitly as
oracles of a `World` value, one reading per index. -/

/-- Solver errors (solver.go package-level `Err*` values). -/
inductive SErr where
  | noSolution
  | multipleSolutions
  | invalidPuzzle
  | timeoutExceeded
deriving DecidableEq

/-- State of a `math/rand` source: the seed it was created from and how
many values have been drawn.  The Go generator is a fixed deterministic
function of its seed; the claims under verification depend only on that
determinism (and on which seed is used), never on the concrete values, so
`rngVal` below is a deterministic stand-in for the Go stream. -/
structure Rng where
  seed : ℤ
  cnt : ℕ
deriving DecidableEq

/-- Deterministic stand-in for the `k`-th value of a `math/rand` stream
seeded with `seed`. -/
def rngVal (seed : ℤ) (k : ℕ) : ℕ :=
  ((seed.natAbs + 1) * (k + 1) * 2654435761) % 4294967296

/-- `rand.New(rand.NewSource(seed))`. -/
def rngOfSeed (seed : ℤ) : Rng := ⟨seed, 0⟩

/-- `rng.Intn(n)`: a value in `[0, n)` (for `n > 0`), advancing the
stream. -/
def rngIntn (g : Rng) (n : ℕ) : ℕ × Rng :=
  (rngVal g.seed g.cnt % n, ⟨g.seed, g.cnt + 1⟩)

/-- Swap the elements at indices `i` and `j` of a list. -/
def swapIdx (l : List ℕ) (i j : ℕ) : List ℕ :=
  (l.set i (l.getD j 0)).set j (l.getD i 0)

/-- The loop of `rng.Shuffle(n, swap)`: `for i := n-1; i > 0; i-- { j :=
rng.Intn(i+1); swap(i, j) }`; the argument counts down the current index. -/
def shuffleAux (g : Rng) (l : List ℕ) : ℕ → List ℕ × Rng
  | 0 => (l, g)
  | i + 1 =>
    let (j, g2) := rngIntn g (i + 2)
    shuffleAux g2 (swapIdx l (i + 1) j) i

/-- `rng.Shuffle` on a list. -/
def shuffleList (g : Rng) (l : List ℕ) : List ℕ × Rng :=
  shuffleAux g l (l.length - 1)

/-- Modelled from the spec (§4.D): solver `SolverOptions` — the solver's
options type is absent from src/.  `MaxSolutions` (default 1), `Randomize`
(shuffles box seeding and MRV candidate order), `Timeout` in nanoseconds
(0 ⇒ unbounded). -/
structure SOptions where
  MaxSolutions : ℤ
  Randomize : Bool
  Timeout : ℤ
deriving DecidableEq

/-- Modelled from the spec (§4.D): solver `DefaultOptions()` — absent from
src/.  The spec gives `max_solutions` default 1; the zero values complete
the record (no randomization, unbounded timeout). -/
def solverDefaultOptions : SOptions :=
  { MaxSolutions := 1, Randomize := false, Timeout := 0 }

/-- The environment: successive `time.Now().UnixNano()` readings, successive
`ctx.Done()` poll results, and successive `time.Since(start)` readings, each
indexed by reading number. -/
structure World where
  clockAt : ℕ → ℤ
  cancelAt : ℕ → Bool
  elapsedAt : ℕ → ℤ

/-- The solver value: its own board (a clone of the caller's), the options,
and the optional rng. -/
structure SolverS where
  board : Board
  options : SOptions
  rng : Option Rng

/-- `solver.New(b, options)` (solver.go): substitute defaults for nil
options, clone the caller's board, and — whenever `Randomize` is set — seed
a fresh rng from the wall clock (`time.Now().UnixNano()`), regardless of
any caller-provided seed.  `clock` is the reading the call observes. -/
def solverNew (b : Board) (options : Option SOptions) (clock : ℤ) : SolverS :=
  let o := options.getD solverDefaultOptions
  { board := b.clone
    options := o
    rng := if o.Randomize then some (rngOfSeed clock) else none }

/-- Modelled from the spec (§4.D, §5): `makeContext` is absent from src/.
Timeout 0 means unbounded, i.e. a context that never fires; otherwise the
polls observe the environment's cancellation oracle. -/
def makeContext (opts : SOptions) (w : World) : ℕ → Bool :=
  if opts.Timeout = 0 then fun _ => false else w.cancelAt

/-- `bits.OnesCount` restricted to 9-bit masks. -/
def onesCount9 (m : ℕ) : ℕ := (List.range 9).countP (fun k => m.testBit k)

/-- `bits.TrailingZeros` restricted to nonzero 9-bit masks (the only
arguments the solver passes it). -/
def trailingZeros9 (m : ℕ) : ℕ :=
  ((List.range 9).filter (fun k => m.testBit k)).headD 9

/-- The nine positions of row `r` in column order. -/
def rowCells (r : Fin 9) : List (Fin 81) :=
  (List.finRange 9).map (fun c => ⟨r.val * 9 + c.val, by have := r.isLt; have := c.isLt; omega⟩)

/-- The nine positions of column `c` in row order. -/
def colCells (c : Fin 9) : List (Fin 81) :=
  (List.finRange 9).map (fun r => ⟨r.val * 9 + c.val, by have := r.isLt; have := c.isLt; omega⟩)

/-- `RegionCells` (board.go): the cells of a region in ascending position
order, as stored in the layout's inverse table. -/
def regionCellsOf (R : Fin 81 → Fin 9) (r : Fin 9) : List (Fin 81) :=
  (List.finRange 81).filter (fun p => R p = r)

/-- The scan of `applyNakedSingles` (solver.go): for each empty cell in
position order, read the candidate mask; a zero mask breaks out of the
loop; a one-bit mask places its digit with `SetForce`. -/
def nakedLoop (R : Fin 81 → Fin 9) : List (Fin 81) → Board → Bool → Board × Bool
  | [], b, changed => (b, changed)
  | p :: rest, b, changed =>
    if b.get (p.val : ℤ) = 0 then
      let mask := b.getCandidatesMask R (p.val : ℤ)
      if mask = 0 then (b, changed)
      else if onesCount9 mask = 1 then
        nakedLoop R rest (b.setForce R p (trailingZeros9 mask + 1)) true
      else nakedLoop R rest b changed
    else nakedLoop R rest b changed

/-- `applyNakedSingles` (solver.go). -/
def applyNakedSingles (R : Fin 81 → Fin 9) (b : Board) : Board × Bool :=
  nakedLoop R (List.finRange 81) b false

/-- The `valuePossibilities[v]` list of the hidden-single scan: the empty
cells of the unit, in unit order, that still admit `v` — computed once from
the board at the start of the unit's scan. -/
def unitPoss (R : Fin 81 → Fin 9) (b : Board) (cells : List (Fin 81)) (v : ℕ) :
    List (Fin 81) :=
  cells.filter (fun p =>
    decide (b.get (p.val : ℤ) = 0) && decide (v ∈ b.getCandidates R (p.val : ℤ)))

/-- `findHiddenSinglesIn{Row,Col,Region}` (solver.go) share this body: the
possibility lists are frozen at entry, then digits 1..9 are applied in
ascending order, each singleton list receiving a `SetForce` — including the
case where earlier placements of the same pass already filled that cell. -/
def hiddenUnit (R : Fin 81 → Fin 9) (cells : List (Fin 81)) (b : Board) :
    Board × Bool :=
  (List.range' 1 9).foldl
    (fun (st : Board × Bool) v =>
      match unitPoss R b cells v with
      | [p] => (st.1.setForce R p v, true)
      | _ => st)
    (b, false)

/-- `applyHiddenSingles` (solver.go): all 9 rows, then all 9 columns, then
all 9 regions, each unit reading the board current at its turn; the changed
flag is the disjunction of all 27 unit flags. -/
def applyHiddenSingles (R : Fin 81 → Fin 9) (b : Board) : Board × Bool :=
  let st1 := (List.finRange 9).foldl
    (fun (st : Board × Bool) r =>
      let (b2, ch) := hiddenUnit R (rowCells r) st.1
      (b2, ch || st.2))
    (b, false)
  let st2 := (List.finRange 9).foldl
    (fun (st : Board × Bool) c =>
      let (b2, ch) := hiddenUnit R (colCells c) st.1
      (b2, ch || st.2))
    st1
  (List.finRange 9).foldl
    (fun (st : Board × Bool) r =>
      let (b2, ch) := hiddenUnit R (regionCellsOf R r) st.1
      (b2, ch || st.2))
    st2

/-- `hasContradiction` (solver.go): some empty cell has an empty candidate
mask. -/
def hasContradiction (R : Fin 81 → Fin 9) (b : Board) : Bool :=
  (List.finRange 81).any (fun p =>
    decide (b.get (p.val : ℤ) = 0) && decide (b.getCandidatesMask R (p.val : ℤ) = 0))

/-- The iteration loop of `PropagateConstraints` (solver.go): naked singles,
hidden singles, contradiction check, repeat while something changed; the
fuel is the source's own `maxIterations = 81·81` iteration bound. -/
def propLoop (R : Fin 81 → Fin 9) : ℕ → Board → Board × Option SErr
  | 0, b => (b, none)
  | fuel + 1, b =>
    let (b1, ch1) := applyNakedSingles R b
    let (b2, ch2) := applyHiddenSingles R b1
    if hasContradiction R b2 then (b2, some .noSolution)
    else if ch1 || ch2 then propLoop R fuel b2
    else (b2, none)

/-- `PropagateConstraints` (solver.go). -/
def propagateConstraints (R : Fin 81 → Fin 9) (b : Board) : Board × Option SErr :=
  propLoop R (81 * 81) b

/-- The scan of `FindMRVCell` (solver.go).  The accumulator is `none` for
the initial `mrvPos = -1, mrvCandidates = nil` state and `some (p, cands)`
once a best cell has been recorded (`mrvCount` is always the recorded
list's length, 10 initially); a cell with at most one candidate breaks the
scan. -/
def findMRVGo (R : Fin 81 → Fin 9) (b : Board) :
    List (Fin 81) → Option (Fin 81 × List ℕ) → Option (Fin 81 × List ℕ)
  | [], st => st
  | p :: rest, st =>
    if b.get (p.val : ℤ) = 0 then
      let cands := b.getCandidates R (p.val : ℤ)
      let best := match st with | none => 10 | some s => s.2.length
      if cands.length < best then
        if cands.length ≤ 1 then some (p, cands)
        else findMRVGo R b rest (some (p, cands))
      else findMRVGo R b rest st
    else findMRVGo R b rest st

/-- `FindMRVCell` (solver.go): the empty cell with fewest candidates, ties
broken by lowest position; `none` for the `(-1, nil)` no-empty-cell
result. -/
def findMRVCell (R : Fin 81 → Fin 9) (b : Board) : Option (Fin 81 × List ℕ) :=
  findMRVGo R b (List.finRange 81) none

/-- `if s.options.Randomize && s.rng != nil { s.rng.Shuffle(...) }`. -/
def shuffleIf (opts : SOptions) (rng : Option Rng) (l : List ℕ) :
    List ℕ × Option Rng :=
  match rng, opts.Randomize with
  | some g, true => let (l2, g2) := shuffleList g l; (l2, some g2)
  | _, _ => (l, rng)

/-- The inner placement loop of `fillThreeBoxes`: write the nine digits of
`nums` into the 3×3 box at `(boxRow, boxCol)` with `SetForce`. -/
def fillBox (R : Fin 81 → Fin 9) (b : Board) (boxRow boxCol : ℕ)
    (nums : List ℕ) : Board :=
  nums.enum.foldl
    (fun bb jv =>
      let pos := (boxRow + jv.1 / 3) * 9 + boxCol + jv.1 % 3
      bb.setForce R ⟨pos % 81, Nat.mod_lt _ (by omega)⟩ jv.2)
    b

/-- `fillThreeBoxes` (solver.go): box rows 0, 3, 6 paired with a (possibly
shuffled) permutation of box columns 0, 3, 6; the digit list 1..9 is
re-shuffled for each box when randomizing and threads through the loop. -/
def fillThreeBoxes (R : Fin 81 → Fin 9) (opts : SOptions) (rng : Option Rng)
    (b : Board) : Board × Option Rng :=
  let (boxCols, rng1) := shuffleIf opts rng [0, 3, 6]
  let final := ([0, 3, 6] : List ℕ).enum.foldl
    (fun (st : Board × Option Rng × List ℕ) ib =>
      let boxCol := boxCols.getD ib.1 0
      let (nums2, rng2) := shuffleIf opts st.2.1 st.2.2
      (fillBox R st.1 ib.2 boxCol nums2, rng2, nums2))
    (b, rng1, [1, 2, 3, 4, 5, 6, 7, 8, 9])
  (final.1, final.2.1)

/-- The body of `backtrack`'s candidate loop (solver.go): skip once a
branch has succeeded (the source's early `return true`); otherwise
`SetForce` the candidate, recurse (`next` is the recursive call), and on
failure `Clear` the cell, keeping whatever the failed branch's propagation
filled in elsewhere.  The recursive call is written out once per use site
of its value; being pure, this coincides with the source's single call. -/
def btStep (R : Fin 81 → Fin 9)
    (next : Board → Option Rng → ℕ → Board × Option Rng × ℕ × Bool) (p : Fin 81)
    (st : Board × Option Rng × ℕ × Bool) (v : ℕ) : Board × Option Rng × ℕ × Bool :=
  if st.2.2.2 then st
  else
    if (next (st.1.setForce R p v) st.2.1 st.2.2.1).2.2.2 then
      next (st.1.setForce R p v) st.2.1 st.2.2.1
    else
      (((next (st.1.setForce R p v) st.2.1 st.2.2.1).1.clear R (p.val : ℤ)).1,
        (next (st.1.setForce R p v) st.2.1 st.2.2.1).2.1,
        (next (st.1.setForce R p v) st.2.1 st.2.2.1).2.2.1, false)

/-- `backtrack` (solver.go): poll the context, propagate, succeed on an
empty counter, pick the MRV cell, and try its candidates (shuffled when
randomizing) through `btStep`.  The result carries the board, the rng, the
poll counter and the success flag.  The fuel bounds the recursion depth
only (each level passes `fuel` unchanged to every child); depth is bounded
by `empty_count + 1 ≤ 82` because every level fills its MRV cell — empty at
entry — with a nonzero digit before recursing and no step of propagation
empties a cell, so fuel 82 in `solveRun` below never runs out. -/
def backtrack (R : Fin 81 → Fin 9) (cancel : ℕ → Bool) (opts : SOptions) :
    ℕ → Board → Option Rng → ℕ → Board × Option Rng × ℕ × Bool
  | 0, b, rng, polls => (b, rng, polls, false)
  | fuel + 1, b, rng, polls =>
    if cancel polls then (b, rng, polls + 1, false)
    else
      match propagateConstraints R b with
      | (b1, some _) => (b1, rng, polls + 1, false)
      | (b1, none) =>
        if b1.emptyCount = 0 then (b1, rng, polls + 1, true)
        else
          match findMRVCell R b1 with
          | none => (b1, rng, polls + 1, false)
          | some (p, cands) =>
            if cands.isEmpty then (b1, rng, polls + 1, false)
            else
              let sh := shuffleIf opts rng cands
              sh.1.foldl
                (btStep R (fun b2 rng2 polls2 => backtrack R cancel opts fuel b2 rng2 polls2) p)
                (b1, sh.2, polls + 1, false)

/-- The board/rng pair entering propagation in `Solve` (solver.go): the
three-box seeding applies only to a fully empty board on a standard
layout. -/
def seedBoxes (R : Fin 81 → Fin 9) (std : Bool) (s : SolverS) : Board × Option Rng :=
  if s.board.emptyCount = 81 ∧ std = true then
    fillThreeBoxes R s.options s.rng s.board
  else (s.board, s.rng)

/-- `Solve` (solver.go), operating on an already constructed solver:
validity precheck, the three-box seeding for fully empty standard boards,
propagation, solved check, then backtracking under the context.  Each
intermediate value is pure, so writing it once per use site coincides with
the source's single computation. -/
def solveRun (R : Fin 81 → Fin 9) (std : Bool) (s : SolverS) (cancel : ℕ → Bool) :
    SolverS × Except SErr Board :=
  if s.board.isValid R then
    match propagateConstraints R (seedBoxes R std s).1 with
    | (b1, some e) => ({ s with board := b1, rng := (seedBoxes R std s).2 }, .error e)
    | (b1, none) =>
      if b1.emptyCount = 0 then
        ({ s with board := b1, rng := (seedBoxes R std s).2 }, .ok b1)
      else
        if (backtrack R cancel s.options 82 b1 (seedBoxes R std s).2 0).2.2.2 then
          ({ s with
              board := (backtrack R cancel s.options 82 b1 (seedBoxes R std s).2 0).1
              rng := (backtrack R cancel s.options 82 b1 (seedBoxes R std s).2 0).2.1 },
           .ok (backtrack R cancel s.options 82 b1 (seedBoxes R std s).2 0).1)
        else
          ({ s with
              board := (backtrack R cancel s.options 82 b1 (seedBoxes R std s).2 0).1
              rng := (backtrack R cancel s.options 82 b1 (seedBoxes R std s).2 0).2.1 },
           .error .noSolution)
  else (s, .error .invalidPuzzle)

/-- `solver.New` followed by `Solve`: the clock seeds the rng (when
randomizing) and the context comes from the options and the environment. -/
def solverSolve (R : Fin 81 → Fin 9) (std : Bool) (b : Board)
    (options : Option SOptions) (w : World) : SolverS × Except SErr Board :=
  let s := solverNew b options (w.clockAt 0)
  solveRun R std s (makeContext s.options w)

/-- `traceDifficulty` (difficulty.go): 0 when solved or when the MRV cell
has no candidates; otherwise sum `1 + trace` over the candidates, restoring
the cell after each.  Fuel bounds recursion depth exactly as for
`backtrack` (each level fills an empty cell before recursing). -/
def traceDifficulty (R : Fin 81 → Fin 9) : ℕ → Board → Board × ℤ
  | 0, b => (b, 0)
  | fuel + 1, b =>
    if b.emptyCount = 0 then (b, 0)
    else
      match findMRVCell R b with
      | none => (b, 0)
      | some (cell, cands) =>
        if cands.isEmpty then (b, 0)
        else
          cands.foldl
            (fun (st : Board × ℤ) v =>
              let r := traceDifficulty R fuel (st.1.setForce R cell v)
              ((r.1.clear R (cell.val : ℤ)).1, st.2 + 1 + r.2))
            (b, 0)

/-! ### Heap model for the frame claim

In Go the solver mutates boards through the pointer `s.Board`; the frame
property says the caller's board is behind a different pointer.  `Mem` is a
store of boards indexed by address; `solver.New` allocates the clone at a
fresh address; every board write the solver performs in the source goes
through `s.Board`, which the store-level runs below reflect by writing back
only at the solver's address. -/

structure Mem where
  boards : ℕ → Board
  next : ℕ

/-- A solver whose board lives in the store. -/
structure SolverRef where
  addr : ℕ
  options : SOptions
  rng : Option Rng

/-- `solver.New` at store level: read the caller's board, clone it into the
next free address. -/
def solverNewMem (m : Mem) (a : ℕ) (options : Option SOptions) (clock : ℤ) :
    Mem × SolverRef :=
  let o := options.getD solverDefaultOptions
  (⟨Function.update m.boards m.next ((m.boards a).clone), m.next + 1⟩,
   ⟨m.next, o, if o.Randomize then some (rngOfSeed clock) else none⟩)

/-- `Solve` at store level: run on the solver's board, write the final
board back at the solver's address. -/
def solverSolveMem (R : Fin 81 → Fin 9) (std : Bool) (m : Mem) (s : SolverRef)
    (cancel : ℕ → Bool) : Mem × Except SErr Board :=
  let r := solveRun R std ⟨m.boards s.addr, s.options, s.rng⟩ cancel
  (⟨Function.update m.boards s.addr r.1.board, m.next⟩, r.2)

/-- `Difficulty(b)` (difficulty.go) at store level: `New(b, nil)` then
`traceDifficulty` on the solver's board. -/
def difficultyMem (R : Fin 81 → Fin 9) (m : Mem) (a : ℕ) (clock : ℤ) : Mem × ℤ :=
  let ms := solverNewMem m a none clock
  let r := traceDifficulty R 82 (ms.1.boards ms.2.addr)
  (⟨Function.update ms.1.boards ms.2.addr r.1, ms.1.next⟩, r.2)

/-! ## The generator (generator package) -/

/-- Generator errors (generator.go package-level `Err*` values). -/
inductive GErr where
  | generationFailed
  | invalidClueCount
  | diggingFailed
deriving DecidableEq

/-- Generator `Options` (generator/options.go).  The `Layout` field is the
region map `R` and standard-layout flag carried separately. -/
structure GOptions where
  ClueCount : ℤ
  Timeout : ℤ
  Seed : ℤ
  EnsureUnique : Bool
deriving DecidableEq

/-- Generator `DefaultOptions` (generator/options.go): clamp the clue count
into 17..80; 10s timeout; seed 0 (wall clock); uniqueness on. -/
def generatorDefaultOptions (clueCount : ℤ) : GOptions :=
  { ClueCount := min (max clueCount 17) 80
    Timeout := 10000000000
    Seed := 0
    EnsureUnique := true }

/-- The generator value (generator.go `Generator`). -/
structure GeneratorS where
  options : GOptions
  rng : Rng

/-- `generator.New` (generator.go): substitute defaults for nil options and
seed the rng from `options.Seed`, falling back to the wall clock for seed
0. -/
def generatorNew (options : Option GOptions) (w : World) : GeneratorS :=
  let o := options.getD (generatorDefaultOptions 32)
  { options := o
    rng := rngOfSeed (if o.Seed = 0 then w.clockAt 0 else o.Seed) }

/-- The loop of `rng.Perm(n)`: `for i := range n { j := rng.Intn(i+1);
m[i] = m[j]; m[j] = i }`; the second argument counts the remaining
indices. -/
def permLoop : Rng → List ℕ → ℕ → ℕ → List ℕ × Rng
  | g, m, _, 0 => (m, g)
  | g, m, i, k + 1 =>
    let (j, g2) := rngIntn g (i + 1)
    permLoop g2 ((m.set i (m.getD j 0)).set j i) (i + 1) k

/-- `rng.Perm(n)`. -/
def permGo (g : Rng) (n : ℕ) : List ℕ × Rng :=
  permLoop g (List.replicate n 0) 0 n

/-- The counting backtracker of `countSolutions` (generator.go): propagate
on a fresh solver clone, count a solution on an empty counter, otherwise
recurse over the MRV candidates on clones, stopping once the count reaches
2.  Fuel bounds depth as in `backtrack`; clones keep levels independent. -/
def countBacktrack (R : Fin 81 → Fin 9) : ℕ → Board → ℕ → ℕ
  | 0, _, count => count
  | fuel + 1, b, count =>
    match propagateConstraints R b.clone with
    | (_, some _) => count
    | (b1, none) =>
      if b1.emptyCount = 0 then count + 1
      else
        match findMRVCell R b1 with
        | none => count
        | some (p, cands) =>
          if cands.isEmpty then count
          else
            cands.foldl
              (fun cnt v =>
                if 2 ≤ cnt then cnt
                else countBacktrack R fuel (b1.clone.setForce R p v) cnt)
              count

/-- `countSolutions` (generator.go): run the counting backtracker from a
clone of the solver's board (itself a clone of the puzzle). -/
def countSolutions (R : Fin 81 → Fin 9) (puzzle : Board) : ℕ :=
  countBacktrack R 82 puzzle.clone.clone 0

/-- `hasUniqueSolution` (generator.go). -/
def hasUniqueSolution (R : Fin 81 → Fin 9) (puzzle : Board) : Bool :=
  decide (countSolutions R puzzle = 1)

/-- One iteration of the removal walk of `removeCells` (generator.go):
skip once enough cells are removed, skip empty cells, otherwise `Clear`
the cell and — when uniqueness is enforced and now broken — restore it with
`SetForce`, undoing the count. -/
def removeStep (R : Fin 81 → Fin 9) (ensureUnique : Bool) (cellsToRemove : ℤ)
    (st : Board × ℤ) (pos : ℕ) : Board × ℤ :=
  if cellsToRemove ≤ st.2 then st
  else if st.1.get (pos : ℤ) = 0 then st
  else if ensureUnique then
    if hasUniqueSolution R ((st.1.clear R (pos : ℤ)).1) then
      ((st.1.clear R (pos : ℤ)).1, st.2 + 1)
    else
      (((st.1.clear R (pos : ℤ)).1).setForce R ⟨pos % 81, Nat.mod_lt _ (by omega)⟩
        (st.1.get (pos : ℤ)).toNat, st.2)
  else ((st.1.clear R (pos : ℤ)).1, st.2 + 1)

/-- The final check of `removeCells` (generator.go): success exactly when
the walk removed the target count. -/
def digResult (target : ℤ) (final : Board × ℤ) (g2 : Rng) :
    (Board × Option GErr) × Rng :=
  if final.2 = target then ((final.1, none), g2)
  else ((final.1, some .diggingFailed), g2)

/-- `removeCells` (generator.go): walk a fresh permutation of the 81
positions, clearing cells until `81 - ClueCount` are gone; report a digging
error if the walk ends short of the target. -/
def removeCells (R : Fin 81 → Fin 9) (gopts : GOptions) (g : Rng)
    (solution : Board) : (Board × Option GErr) × Rng :=
  digResult (81 - gopts.ClueCount)
    ((permGo g 81).1.foldl (removeStep R gopts.EnsureUnique (81 - gopts.ClueCount))
      (solution.clone, 0))
    (permGo g 81).2

/-- `generateSolution` (generator.go): a randomized solver
(`MaxSolutions 1, Randomize true`, the generator's timeout) run on an
empty board; `k` indexes the environment readings this call observes —
in particular `solver.New` seeds the rng from the wall clock here. -/
def generateSolution (R : Fin 81 → Fin 9) (std : Bool) (gopts : GOptions)
    (w : World) (k : ℕ) : Except SErr Board :=
  let s := solverNew Board.new
    (some { MaxSolutions := 1, Randomize := true, Timeout := gopts.Timeout })
    (w.clockAt k)
  (solveRun R std s (makeContext s.options w)).2

/-- The tail of one `Generate` iteration once a solution is in hand
(generator.go): dig, then check uniqueness; `retry` is the loop's next
iteration. -/
def digStep (R : Fin 81 → Fin 9) (gopts : GOptions)
    (retry : Rng → Except GErr (Board × Board)) (g : Rng) (solution : Board) :
    Except GErr (Board × Board) :=
  match removeCells R gopts g solution with
  | ((puzzle, none), g2) =>
    if gopts.EnsureUnique then
      if hasUniqueSolution R puzzle then .ok (puzzle, solution)
      else retry g2
    else .ok (puzzle, solution)
  | ((_, some _), g2) => retry g2

/-- The retry loop of `Generate` (generator.go): check the timeout, build a
solution, dig, check uniqueness; any failure retries.  `k` counts the
iterations (indexing the environment readings); the fuel makes the loop a
total function — exhausting it yields the same `ErrGenerationFailed` that
an elapsed timeout yields. -/
def generateLoop (R : Fin 81 → Fin 9) (std : Bool) (gopts : GOptions)
    (w : World) : ℕ → ℕ → Rng → Except GErr (Board × Board)
  | 0, _, _ => .error .generationFailed
  | fuel + 1, k, g =>
    if gopts.Timeout ≤ w.elapsedAt k then .error .generationFailed
    else
      match generateSolution R std gopts w k with
      | .error _ => generateLoop R std gopts w fuel (k + 1) g
      | .ok solution =>
        digStep R gopts (fun g2 => generateLoop R std gopts w fuel (k + 1) g2) g solution

/-- `Generate` (generator.go): reject a clue count outside 17..80, then run
the retry loop with the generator's rng. -/
def generate (R : Fin 81 → Fin 9) (std : Bool) (gopts : GOptions) (w : World)
    (fuel : ℕ) : Except GErr (Board × Board) :=
  if gopts.ClueCount < 17 ∨ 80 < gopts.ClueCount then .error .invalidClueCount
  else generateLoop R std gopts w fuel 0
    (rngOfSeed (if gopts.Seed = 0 then w.clockAt 0 else gopts.Seed))

/-! ### Counter arithmetic through the solver and the removal walk -/

theorem get_coe (b : Board) (p : Fin 81) : b.get (p.val : ℤ) = (b.cells p : ℤ) := by
  simp [Board.get, posInt_ok p]

theorem setForce_emptyCount (R : Fin 81 → Fin 9) (b : Board) (p : Fin 81) (v : ℕ) :
    (b.setForce R p v).emptyCount = b.emptyCount - 1 := rfl

theorem clear_emptyCount_filled (R : Fin 81 → Fin 9) (b : Board) (p : Fin 81)
    (h : b.cells p ≠ 0) :
    ((b.clear R (p.val : ℤ)).1).emptyCount = b.emptyCount + 1 := by
  rw [clear_coe_filled R b p h]

theorem getD_lt_81 : ∀ (l : List ℕ) (j : ℕ), (∀ x ∈ l, x < 81) → l.getD j 0 < 81 := by
  intro l
  induction l with
  | nil => intro j _; rw [List.getD_nil]; decide
  | cons a t ih =>
    intro j h
    cases j with
    | zero => rw [List.getD_cons_zero]; exact h a (List.mem_cons_self a t)
    | succ j2 =>
      rw [List.getD_cons_succ]
      exact ih j2 (fun x hx => h x (List.mem_cons_of_mem a hx))

theorem permLoop_bound : ∀ (k : ℕ) (g : Rng) (m : List ℕ) (i : ℕ),
    (∀ x ∈ m, x < 81) → i + k ≤ 81 →
    ∀ x ∈ (permLoop g m i k).1, x < 81 := by
  intro k
  induction k with
  | zero => intro g m i hm _ x hx; exact hm x hx
  | succ k ih =>
    intro g m i hm hik x hx
    have hx2 : x ∈ (permLoop ⟨g.seed, g.cnt + 1⟩
        ((m.set i (m.getD (rngVal g.seed g.cnt % (i + 1)) 0)).set
          (rngVal g.seed g.cnt % (i + 1)) i) (i + 1) k).1 := hx
    refine ih _ _ (i + 1) ?_ (by omega) x hx2
    intro y hy
    rcases List.mem_or_eq_of_mem_set hy with hy1 | rfl
    · rcases List.mem_or_eq_of_mem_set hy1 with hy2 | rfl
      · exact hm y hy2
      · exact getD_lt_81 m _ hm
    · omega

theorem permGo_bound (g : Rng) : ∀ x ∈ (permGo g 81).1, x < 81 := by
  refine permLoop_bound 81 g (List.replicate 81 0) 0 ?_ (by omega)
  intro x hx
  rw [List.eq_of_mem_replicate hx]
  decide

theorem removeStep_inv (R : Fin 81 → Fin 9) (eu : Bool) (target : ℤ)
    (st : Board × ℤ) (pos : ℕ) (hpos : pos < 81) :
    (removeStep R eu target st pos).1.emptyCount - (removeStep R eu target st pos).2 =
      st.1.emptyCount - st.2 := by
  unfold removeStep
  by_cases hb : target ≤ st.2
  · rw [if_pos hb]
  · rw [if_neg hb]
    by_cases hz : st.1.get (pos : ℤ) = 0
    · rw [if_pos hz]
    · rw [if_neg hz]
      have hg : st.1.get (pos : ℤ) = (st.1.cells ⟨pos, hpos⟩ : ℤ) :=
        get_coe st.1 ⟨pos, hpos⟩
      have hcells : st.1.cells ⟨pos, hpos⟩ ≠ 0 := by
        intro hc
        apply hz
        rw [hg, hc]
        rfl
      have hc1 : ((st.1.clear R (pos : ℤ)).1).emptyCount = st.1.emptyCount + 1 :=
        clear_emptyCount_filled R st.1 ⟨pos, hpos⟩ hcells
      by_cases heu : eu = true
      · rw [if_pos heu]
        by_cases hu : hasUniqueSolution R ((st.1.clear R (pos : ℤ)).1) = true
        · rw [if_pos hu]
          simp only []
          rw [hc1]
          ring
        · rw [if_neg hu]
          simp only []
          rw [setForce_emptyCount, hc1]
          ring
      · rw [if_neg heu]
        simp only []
        rw [hc1]
        ring

theorem removeFold_inv (R : Fin 81 → Fin 9) (eu : Bool) (target : ℤ) :
    ∀ (l : List ℕ), (∀ x ∈ l, x < 81) → ∀ (st : Board × ℤ),
      (l.foldl (removeStep R eu target) st).1.emptyCount -
        (l.foldl (removeStep R eu target) st).2 = st.1.emptyCount - st.2 := by
  intro l
  induction l with
  | nil => intro _ st; rfl
  | cons pos rest ih =>
    intro hl st
    rw [List.foldl_cons,
      ih (fun x hx => hl x (List.mem_cons_of_mem pos hx)) (removeStep R eu target st pos)]
    exact removeStep_inv R eu target st pos (hl pos (List.mem_cons_self pos rest))

theorem digResult_ok (target : ℤ) (final : Board × ℤ) (g2 : Rng) (puzzle : Board)
    (g3 : Rng) (h : digResult target final g2 = ((puzzle, none), g3)) :
    final.1 = puzzle ∧ final.2 = target := by
  unfold digResult at h
  by_cases hfi : final.2 = target
  · rw [if_pos hfi] at h
    injection h with h1 h2
    injection h1 with hp _
    exact ⟨hp, hfi⟩
  · rw [if_neg hfi] at h
    injection h with h1 h2
    injection h1 with _ hnone
    cases hnone

theorem removeCells_ok_empty (R : Fin 81 → Fin 9) (gopts : GOptions) (g : Rng)
    (sol puzzle : Board) (g2 : Rng)
    (h : removeCells R gopts g sol = ((puzzle, none), g2)) :
    puzzle.emptyCount = sol.emptyCount + (81 - gopts.ClueCount) := by
  have hinv := removeFold_inv R gopts.EnsureUnique (81 - gopts.ClueCount)
    (permGo g 81).1 (permGo_bound g) (sol.clone, 0)
  obtain ⟨hp, hfi⟩ := digResult_ok (81 - gopts.ClueCount)
    ((permGo g 81).1.foldl (removeStep R gopts.EnsureUnique (81 - gopts.ClueCount))
      (sol.clone, 0)) (permGo g 81).2 puzzle g2 h
  have hclone : (sol.clone).emptyCount = sol.emptyCount := rfl
  rw [hp] at hinv
  rw [hfi] at hinv
  rw [hclone] at hinv
  omega

theorem btFold_ok (R : Fin 81 → Fin 9)
    (next : Board → Option Rng → ℕ → Board × Option Rng × ℕ × Bool) (p : Fin 81)
    (ih : ∀ (b : Board) (rng : Option Rng) (polls : ℕ),
      (next b rng polls).2.2.2 = true → (next b rng polls).1.emptyCount = 0) :
    ∀ (l : List ℕ) (st : Board × Option Rng × ℕ × Bool),
      (st.2.2.2 = true → st.1.emptyCount = 0) →
      ((l.foldl (btStep R next p) st).2.2.2 = true →
        (l.foldl (btStep R next p) st).1.emptyCount = 0) := by
  intro l
  induction l with
  | nil => intro st hst; exact hst
  | cons v rest ihl =>
    intro st hst
    rw [List.foldl_cons]
    apply ihl
    unfold btStep
    by_cases hd : st.2.2.2 = true
    · rw [if_pos hd]; exact hst
    · rw [if_neg hd]
      by_cases hr : (next (st.1.setForce R p v) st.2.1 st.2.2.1).2.2.2 = true
      · rw [if_pos hr]
        intro _
        exact ih _ _ _ hr
      · rw [if_neg hr]
        intro hcontr
        simp at hcontr

theorem backtrack_ok_empty (R : Fin 81 → Fin 9) (cancel : ℕ → Bool) (opts : SOptions) :
    ∀ (fuel : ℕ) (b : Board) (rng : Option Rng) (polls : ℕ),
      (backtrack R cancel opts fuel b rng polls).2.2.2 = true →
      (backtrack R cancel opts fuel b rng polls).1.emptyCount = 0 := by
  intro fuel
  induction fuel with
  | zero =>
    intro b rng polls h
    simp [backtrack] at h
  | succ fuel ih =>
    intro b rng polls
    simp only [backtrack]
    split
    · intro h; simp at h
    · split
      · intro h; simp at h
      · split
        · rename_i hempty
          intro _
          simpa using hempty
        · split
          · intro h; simp at h
          · split
            · intro h; simp at h
            · exact btFold_ok R (backtrack R cancel opts fuel) _ ih _ _
                (fun hcontr => by simp at hcontr)

theorem solveRun_snd_ok_empty (R : Fin 81 → Fin 9) (std : Bool) (s : SolverS)
    (cancel : ℕ → Bool) (sol : Board)
    (h : (solveRun R std s cancel).2 = .ok sol) : sol.emptyCount = 0 := by
  simp only [solveRun] at h
  split at h
  · split at h
    · simp at h
    · rename_i b1 heq
      split at h
      · rename_i hempty
        simp at h
        rw [← h]
        exact hempty
      · split at h
        · rename_i hbt
          simp at h
          rw [← h]
          exact backtrack_ok_empty R cancel s.options 82 _ _ _ hbt
        · simp at h
  · simp at h

theorem generateSolution_ok_empty (R : Fin 81 → Fin 9) (std : Bool)
    (gopts : GOptions) (w : World) (k : ℕ) (sol : Board)
    (h : generateSolution R std gopts w k = .ok sol) : sol.emptyCount = 0 := by
  simp only [generateSolution] at h
  exact solveRun_snd_ok_empty R std _ _ sol h

/-- The per-outcome property behind C4: a success carries a puzzle with
exactly `c` clues, a failure is `ErrGenerationFailed`. -/
def ClueOutcome (c : ℤ) : Except GErr (Board × Board) → Prop
  | .ok pr => pr.1.clueCount = c
  | .error e => e = .generationFailed

theorem digStep_spec (R : Fin 81 → Fin 9) (gopts : GOptions)
    (retry : Rng → Except GErr (Board × Board)) (g : Rng) (solution : Board)
    (hsol : solution.emptyCount = 0)
    (hretry : ∀ g2, ClueOutcome gopts.ClueCount (retry g2)) :
    ClueOutcome gopts.ClueCount (digStep R gopts retry g solution) := by
  unfold digStep
  rcases hrc : removeCells R gopts g solution with ⟨⟨puzzle, oe⟩, g2⟩
  cases oe with
  | some e2 => exact hretry g2
  | none =>
    have hpe : puzzle.emptyCount = solution.emptyCount + (81 - gopts.ClueCount) :=
      removeCells_ok_empty R gopts g solution puzzle g2 hrc
    have hclue : puzzle.clueCount = gopts.ClueCount := by
      unfold Board.clueCount
      omega
    show ClueOutcome gopts.ClueCount (if gopts.EnsureUnique = true then
        (if hasUniqueSolution R puzzle = true then Except.ok (puzzle, solution)
         else retry g2)
      else (Except.ok (puzzle, solution) : Except GErr (Board × Board)))
    by_cases heu : gopts.EnsureUnique = true
    · rw [if_pos heu]
      by_cases hu : hasUniqueSolution R puzzle = true
      · rw [if_pos hu]
        exact hclue
      · rw [if_neg hu]
        exact hretry g2
    · rw [if_neg heu]
      exact hclue

theorem gl_succ_timeout (R : Fin 81 → Fin 9) (std : Bool) (gopts : GOptions)
    (w : World) (fuel k : ℕ) (g : Rng) (ht : gopts.Timeout ≤ w.elapsedAt k) :
    generateLoop R std gopts w (fuel + 1) k g = .error .generationFailed := by
  simp only [generateLoop]
  rw [if_pos ht]

theorem gl_succ_solveErr (R : Fin 81 → Fin 9) (std : Bool) (gopts : GOptions)
    (w : World) (fuel k : ℕ) (g : Rng) (ht : ¬ gopts.Timeout ≤ w.elapsedAt k)
    (e : SErr) (hs : generateSolution R std gopts w k = .error e) :
    generateLoop R std gopts w (fuel + 1) k g =
      generateLoop R std gopts w fuel (k + 1) g := by
  simp only [generateLoop]
  rw [if_neg ht, hs]

theorem gl_succ_ok (R : Fin 81 → Fin 9) (std : Bool) (gopts : GOptions)
    (w : World) (fuel k : ℕ) (g : Rng) (ht : ¬ gopts.Timeout ≤ w.elapsedAt k)
    (solution : Board) (hs : generateSolution R std gopts w k = .ok solution) :
    generateLoop R std gopts w (fuel + 1) k g =
      digStep R gopts (fun g2 => generateLoop R std gopts w fuel (k + 1) g2)
        g solution := by
  simp only [generateLoop]
  rw [if_neg ht, hs]

attribute [irreducible] digStep

theorem generateLoop_clue (R : Fin 81 → Fin 9) (std : Bool) (gopts : GOptions)
    (w : World) :
    ∀ (fuel k : ℕ) (g : Rng),
      ClueOutcome gopts.ClueCount (generateLoop R std gopts w fuel k g) := by
  intro fuel
  induction fuel with
  | zero => intro k g; exact rfl
  | succ fuel ih =>
    intro k g
    by_cases ht : gopts.Timeout ≤ w.elapsedAt k
    · rw [gl_succ_timeout R std gopts w fuel k g ht]
      exact rfl
    · rcases hs : generateSolution R std gopts w k with e | solution
      · rw [gl_succ_solveErr R std gopts w fuel k g ht e hs]
        exact ih (k + 1) g
      · rw [gl_succ_ok R std gopts w fuel k g ht solution hs]
        refine digStep_spec R gopts
          (fun g2 => generateLoop R std gopts w fuel (k + 1) g2) g solution ?_ ?_
        · exact generateSolution_ok_empty R std gopts w k solution hs
        · exact fun g2 => ih (k + 1) g2



/-! ## C4: an emitted puzzle has exactly the requested clue count -/

/-- C4: for a clue count `c` in 17..80, a successful `Generate` returns a
puzzle with `ClueCount() = c`, because `removeCells` succeeds only after
clearing exactly `81 - c` filled cells of a complete solution (each `Clear`
of a filled cell raises the empty counter by one and each uniqueness-driven
`SetForce` restore lowers it back); an attempt in which uniqueness checking
blocked too many removals ends in `ErrDiggingFailed`, which the outer loop
swallows and retries, so the only error the caller can see is
`ErrGenerationFailed` once the timeout (or retry budget) is exhausted. -/
theorem c4_generate_clue_count (R : Fin 81 → Fin 9) (std : Bool)
    (gopts : GOptions) (w : World) (fuel : ℕ)
    (hc : 17 ≤ gopts.ClueCount ∧ gopts.ClueCount ≤ 80) :
    ClueOutcome gopts.ClueCount (generate R std gopts w fuel) := by
  unfold generate
  rw [if_neg (by omega : ¬(gopts.ClueCount < 17 ∨ 80 < gopts.ClueCount))]
  exact generateLoop_clue R std gopts w fuel 0 _

/-- The concrete options of scenario S5 (clue count 30, seed 42). -/
def gopts30 : GOptions :=
  { ClueCount := 30, Timeout := 10000000000, Seed := 42, EnsureUnique := true }

theorem c4_generate_clue_count_witness :
    (17 ≤ gopts30.ClueCount ∧ gopts30.ClueCount ≤ 80) ∧
    ClueOutcome gopts30.ClueCount
      (generate standardRegion true gopts30
        ⟨fun _ => 0, fun _ => false, fun _ => 0⟩ 0) :=
  ⟨⟨by decide, by decide⟩,
   c4_generate_clue_count standardRegion true gopts30
     ⟨fun _ => 0, fun _ => false, fun _ => 0⟩ 0 ⟨by decide, by decide⟩⟩

/-! ## C7: the solver never mutates the caller's board -/

/-- C7: `solver.New` clones the caller's board into a fresh location and
every board write the solver performs — through `Solve`'s seeding,
propagation and backtracking, and through `Difficulty`'s trial placements —
goes through the solver's own board.  In the store model, for any options,
context and outcome, the board at the caller's address is untouched by
`New` + `Solve` and by `Difficulty`. -/
theorem c7_solver_frame (R : Fin 81 → Fin 9) (std : Bool) (m : Mem) (a : ℕ)
    (options : Option SOptions) (clock : ℤ) (cancel : ℕ → Bool)
    (ha : a < m.next) :
    ((solverSolveMem R std (solverNewMem m a options clock).1
        (solverNewMem m a options clock).2 cancel).1.boards a = m.boards a) ∧
    ((difficultyMem R m a clock).1.boards a = m.boards a) := by
  have hne : a ≠ m.next := Nat.ne_of_lt ha
  constructor
  · simp only [solverSolveMem, solverNewMem]
    rw [Function.update_noteq hne, Function.update_noteq hne]
  · simp only [difficultyMem, solverNewMem]
    rw [Function.update_noteq hne, Function.update_noteq hne]

theorem c7_solver_frame_witness :
    (0 < (⟨fun _ => Board.new, 1⟩ : Mem).next) ∧
    ((solverSolveMem standardRegion true
        (solverNewMem ⟨fun _ => Board.new, 1⟩ 0 none 0).1
        (solverNewMem ⟨fun _ => Board.new, 1⟩ 0 none 0).2
        (fun _ => false)).1.boards 0 = (⟨fun _ => Board.new, 1⟩ : Mem).boards 0 ∧
      (difficultyMem standardRegion ⟨fun _ => Board.new, 1⟩ 0 0).1.boards 0 =
        (⟨fun _ => Board.new, 1⟩ : Mem).boards 0) :=
  ⟨by decide,
   c7_solver_frame standardRegion true ⟨fun _ => Board.new, 1⟩ 0 none 0
     (fun _ => false) (by decide)⟩

/-! ## C8: `Solve` is deterministic without randomization and timeout -/

/-- C8: with `Randomize = false` and `Timeout = 0` the solver never draws
from the environment: `New` seeds no rng and the context never fires, so
`Solve` run in any two environments — any wall-clock readings, any
cancellation behavior — returns the same final solver state, result board
and error; the output is a pure function of the input board, region map and
layout kind. -/
theorem c8_solve_deterministic (R : Fin 81 → Fin 9) (std : Bool) (b : Board)
    (opts : SOptions) (hrand : opts.Randomize = false) (htime : opts.Timeout = 0)
    (w1 w2 : World) :
    solverSolve R std b (some opts) w1 = solverSolve R std b (some opts) w2 := by
  simp [solverSolve, solverNew, makeContext, hrand, htime]

/-- The concrete solver options of C8's evaluation: no randomization,
unbounded timeout. -/
def sopts0 : SOptions := { MaxSolutions := 1, Randomize := false, Timeout := 0 }

theorem c8_solve_deterministic_witness :
    sopts0.Randomize = false ∧
    sopts0.Timeout = 0 ∧
    solverSolve standardRegion true Board.new (some sopts0)
        ⟨fun _ => 7, fun _ => true, fun _ => 3⟩ =
      solverSolve standardRegion true Board.new (some sopts0)
        ⟨fun _ => 99, fun _ => false, fun _ => 5⟩ :=
  ⟨rfl, rfl,
   c8_solve_deterministic standardRegion true Board.new sopts0 rfl rfl
     ⟨fun _ => 7, fun _ => true, fun _ => 3⟩
     ⟨fun _ => 99, fun _ => false, fun _ => 5⟩⟩

/-! ## C9: a fixed generator seed does not make `Generate` clock-independent -/

/-- C9: the claim says that with a fixed nonzero `Seed` the generator's
output is a pure function of the options.  In the code, however,
`generateSolution` builds its solver with `Randomize: true`, and
`solver.New` seeds that solver's rng from `time.Now().UnixNano()`
unconditionally — the generator's seeded rng is not consulted.  So the rng
driving the box seeding and candidate shuffling of every solution build
equals the wall-clock reading, for every options value (the `Seed` field
appears nowhere); two runs at different clock readings get different rng
states, hence generally different solutions and puzzles. -/
theorem c9_solver_rng_seeded_from_clock :
    (∀ (gopts : GOptions) (w : World) (k : ℕ) (b : Board),
      (solverNew b
          (some { MaxSolutions := 1, Randomize := true, Timeout := gopts.Timeout })
          (w.clockAt k)).rng
        = some (rngOfSeed (w.clockAt k))) ∧
    (∀ (R : Fin 81 → Fin 9) (std : Bool) (gopts : GOptions) (w : World) (k : ℕ),
      generateSolution R std gopts w k =
        (solveRun R std
          { board := Board.new.clone
            options := { MaxSolutions := 1, Randomize := true, Timeout := gopts.Timeout }
            rng := some (rngOfSeed (w.clockAt k)) }
          (makeContext
            { MaxSolutions := 1, Randomize := true, Timeout := gopts.Timeout }
            w)).2) ∧
    (solverNew Board.new
        (some { MaxSolutions := 1, Randomize := true, Timeout := 10000000000 })
        1111).rng ≠
      (solverNew Board.new
        (some { MaxSolutions := 1, Randomize := true, Timeout := 10000000000 })
        2222).rng := by
  refine ⟨fun gopts w k b => rfl, fun R std gopts w k => rfl, ?_⟩
  intro h
  have h2 : some (rngOfSeed 1111) = some (rngOfSeed 2222) := h
  injection h2 with h3
  have h4 : (1111 : ℤ) = 2222 := congrArg Rng.seed h3
  omega

end Sudoku
